import Mathlib

/-!
Verification of the AA-tree backed ordered key-value map in
`src/keyvaluemap/src/main.rs`.

The Rust `Option<Box<TreeNode<T>>>` recursive ownership structure is embedded
as the inductive `Tree`, whose `nil` constructor corresponds to `None` and
whose `node` constructor carries the `value`, `left`, `right` and `level`
fields of `TreeNode`.  Machine integers (`usize` levels and counts) never
overflow in these algorithms, so they are modelled as `Nat`.

The generic functions `skew`, `split`, `decrease_level`, `successor` and
`predecessor` never compare values, so they are embedded generically.  The
functions `insert`, `delete` and `find` compare values through the
`PartialOrd`/`PartialEq` implementation of `KeyValuePair`, which compares
keys only; they are embedded directly at element type `KeyValuePair K V`
with `[LinearOrder K]`, matching the program's single instantiation
(`KeyValueMap<K, V>` requires `K: PartialOrd + PartialEq`, and the spec
makes trichotomy of the key order a precondition).
-/

namespace AAMap

/-- `Tree α` embeds `Option<Box<TreeNode<T>>>`: `nil` is `None`, and
`node value left right level` is `Some(Box(TreeNode { value, left, right, level }))`. -/
inductive Tree (α : Type) : Type where
  | nil : Tree α
  | node (value : α) (left : Tree α) (right : Tree α) (level : Nat) : Tree α
deriving DecidableEq

variable {α : Type}

/-- The `level` closure inside `decrease_level` in the source:
`None` has level 0, a node reports its `level` field. -/
def levelOf : Tree α → Nat
  | .nil => 0
  | .node _ _ _ lvl => lvl

/-- The `right` field of a tree node (`nil` for an absent tree). -/
def rightT : Tree α → Tree α
  | .nil => .nil
  | .node _ _ r _ => r

/-- The `left` field of a tree node (`nil` for an absent tree). -/
def leftT : Tree α → Tree α
  | .nil => .nil
  | .node _ l _ _ => l

/-- `fn skew` from the source: if the left child exists and has the same
level as the root, rotate right; otherwise return the tree unchanged. -/
def skew : Tree α → Tree α
  | .nil => .nil
  | .node v .nil r lvl => .node v .nil r lvl
  | .node v (.node lv ll lr llev) r lvl =>
    if llev = lvl then .node lv ll (.node v lr r lvl) llev
    else .node v (.node lv ll lr llev) r lvl

/-- `fn split` from the source: if the right child and the right-right
grandchild exist and the grandchild's level equals the root's level,
rotate left and increment the promoted node's level; otherwise return
the tree unchanged. -/
def split : Tree α → Tree α
  | .nil => .nil
  | .node v l .nil lvl => .node v l .nil lvl
  | .node v l (.node rv rl rr rlev) lvl =>
    match rr with
    | .node rrv rrl rrr rrlev =>
      if lvl = rrlev then .node rv (.node v l rl lvl) (.node rrv rrl rrr rrlev) (rlev + 1)
      else .node v l (.node rv rl (.node rrv rrl rrr rrlev) rlev) lvl
    | .nil => .node v l (.node rv rl .nil rlev) lvl

/-- `fn decrease_level` from the source.  The Rust function unwraps its
`Option` argument and is only ever called on `Some`; the `nil` case here is
unreachable at every call site and returns `nil`. -/
def decrease_level : Tree α → Tree α
  | .nil => .nil
  | .node v l r lvl =>
    if min (levelOf l) (levelOf r) + 1 < lvl then
      match r with
      | .node rv rl rr rlev =>
        if min (levelOf l) (levelOf r) + 1 < rlev then
          .node v l (.node rv rl rr (min (levelOf l) (levelOf r) + 1))
            (min (levelOf l) (levelOf r) + 1)
        else .node v l (.node rv rl rr rlev) (min (levelOf l) (levelOf r) + 1)
      | .nil => .node v l .nil (min (levelOf l) (levelOf r) + 1)
    else .node v l r lvl

/-- `tree.right = f(tree.right)` — in-place replacement of the right child.
The `nil` case corresponds to the unreachable `None` after an `unwrap`. -/
def mapRight (f : Tree α → Tree α) : Tree α → Tree α
  | .nil => .nil
  | .node v l r lvl => .node v l (f r) lvl

/-- The `// Rebalance subtree` block that appears verbatim in `predecessor`,
`successor` and `delete`:
`tree = skew(decrease_level(Some(tree))).unwrap(); tree.right = skew(tree.right);`
`if let Some(r) = tree.right { r.right = skew(r.right) };`
`tree = split(Some(tree)).unwrap(); tree.right = split(tree.right)`.
The input is always a node, and the two `unwrap`s cannot fail because
`skew`/`split` of `Some` is `Some`. -/
def rebalance (t : Tree α) : Tree α :=
  mapRight split
    (split (mapRight (fun r => mapRight skew (skew r)) (skew (decrease_level t))))

/-- `fn successor` from the source.  The Rust function consumes a
`Box<TreeNode<T>>`; its four fields are passed here as separate arguments.
It detaches the leftmost node of the subtree and returns the rebalanced
remainder together with the detached node's `value` and `level` (the
detached node's children are `None` after the `mem::swap`). -/
def successor (v : α) (l r : Tree α) (lvl : Nat) : Tree α × α × Nat :=
  match l with
  | .nil => (r, v, lvl)
  | .node lv ll lr llev =>
    let p := successor lv ll lr llev
    (rebalance (Tree.node v p.1 r lvl), p.2)

/-- `fn predecessor` from the source (mirror of `successor`): detaches the
rightmost node of the subtree. -/
def predecessor (v : α) (l r : Tree α) (lvl : Nat) : Tree α × α × Nat :=
  match r with
  | .nil => (l, v, lvl)
  | .node rv rl rr rlev =>
    let p := predecessor rv rl rr rlev
    (rebalance (Tree.node v l p.1 lvl), p.2)

/-- `struct KeyValuePair<K, V> { key: K, value: Option<V> }` from the source.
Its `PartialOrd`/`PartialEq` implementations compare keys only. -/
structure KeyValuePair (K V : Type) where
  key : K
  value : Option V
deriving DecidableEq

variable {K V : Type} [LinearOrder K]

/-- `fn insert` from the source, at the program's element type
`KeyValuePair K V`.  The Rust function consumes the new node
`x: Box<TreeNode<T>>`; its fields are the arguments `xv`, `xl`, `xr`,
`xlev` here (the facade always passes a fresh leaf: `xl = xr = nil`,
`xlev = 1`).  `x.value < t.value` on pairs is `xv.key < v.key` and
`x.value > t.value` is `v.key < xv.key`, per the `PartialOrd`
implementation of `KeyValuePair`. -/
def insert (root : Tree (KeyValuePair K V)) (xv : KeyValuePair K V)
    (xl xr : Tree (KeyValuePair K V)) (xlev : Nat) :
    Bool × Tree (KeyValuePair K V) :=
  let rt : Bool × Tree (KeyValuePair K V) :=
    match root with
    | .nil => (true, Tree.node xv xl xr xlev)
    | .node v l r lvl =>
      if xv.key < v.key then
        let p := insert l xv xl xr xlev
        (p.1, Tree.node v p.2 r lvl)
      else if v.key < xv.key then
        let p := insert r xv xl xr xlev
        (p.1, Tree.node v l p.2 lvl)
      else (false, Tree.node v l r lvl)
  (rt.1, split (skew rt.2))

/-- `fn delete` from the source, at the program's element type.  Returns the
new root and, when a node was extracted, its `value` and `level` (extracted
nodes always have `None` children).  In the two swap cases the matched
node's pair is exchanged with the extracted successor/predecessor pair via
`mem::swap`, so the node keeps the replacement pair and the extraction
result carries the original pair `v`. -/
def delete (root : Tree (KeyValuePair K V)) (x : KeyValuePair K V) :
    Tree (KeyValuePair K V) × Option (KeyValuePair K V × Nat) :=
  match root with
  | .nil => (.nil, none)
  | .node v l r lvl =>
    if x.key < v.key then
      let p := delete l x
      (rebalance (Tree.node v p.1 r lvl), p.2)
    else if v.key < x.key then
      let p := delete r x
      (rebalance (Tree.node v l p.1 lvl), p.2)
    else
      match l, r with
      | .nil, .nil => (.nil, some (v, lvl))
      | .nil, .node rv rl rr rlev =>
        let p := successor rv rl rr rlev
        (rebalance (Tree.node p.2.1 .nil p.1 lvl), some (v, p.2.2))
      | .node lv ll lr llev, _ =>
        let p := predecessor lv ll lr llev
        (rebalance (Tree.node p.2.1 p.1 r lvl), some (v, p.2.2))

/-- The iterative cursor loop in `KeyValueMap::find`, as a recursion over the
tree: returns the stored pair of the node whose key matches. -/
def findNode (k : K) : Tree (KeyValuePair K V) → Option (KeyValuePair K V)
  | .nil => none
  | .node v l r _ =>
    if k < v.key then findNode k l
    else if v.key < k then findNode k r
    else if k = v.key then some v
    else none

/-- `struct KeyValueMap<K, V> { count: usize, root: Option<Box<TreeNode<..>>> }`. -/
structure KeyValueMap (K V : Type) where
  count : Nat
  root : Tree (KeyValuePair K V)
deriving DecidableEq

/-- `KeyValueMap::new`. -/
def KeyValueMap.new : KeyValueMap K V := ⟨0, .nil⟩

/-- `KeyValueMap::insert`: wraps the key and value in a fresh level-1 leaf
with `value: Some(value)`, inserts it, and bumps `count` by `res as usize`. -/
def KeyValueMap.insert (m : KeyValueMap K V) (key : K) (value : V) :
    Bool × KeyValueMap K V :=
  let p := AAMap.insert m.root ⟨key, some value⟩ .nil .nil 1
  (p.1, ⟨m.count + (if p.1 then 1 else 0), p.2⟩)

/-- `KeyValueMap::delete`: deletes with the search pair `{ key, value: None }`;
on success decrements `count` and returns the extracted node's pair. -/
def KeyValueMap.delete (m : KeyValueMap K V) (key : K) :
    Option (KeyValuePair K V) × KeyValueMap K V :=
  let p := AAMap.delete m.root ⟨key, none⟩
  match p.2 with
  | some d => (some d.1, ⟨m.count - 1, p.1⟩)
  | none => (none, ⟨m.count, p.1⟩)

/-- `KeyValueMap::find`: returns the matched node's key together with the
stored `Option<V>`.  The Rust code returns
`Some(KeyValuePair { key, value: Some(value.as_ref().unwrap()) })`, i.e. it
unwraps the stored option; the embedding returns the stored option itself,
and `C10_find_total` below proves it is always `some` on reachable maps, so
the unwrap never panics and the two presentations agree on every reachable
map. -/
def KeyValueMap.find (m : KeyValueMap K V) (key : K) : Option (K × Option V) :=
  (findNode key m.root).map fun p => (p.key, p.value)

/-! ### Model functions: traversals, size, invariants -/

/-- In-order traversal of the stored values. -/
def inorder : Tree α → List α
  | .nil => []
  | .node v l r _ => inorder l ++ v :: inorder r

/-- In-order traversal of (value, level) pairs, used to state that a
transformation moves nodes around without touching any node's level. -/
def inorderL : Tree α → List (α × Nat)
  | .nil => []
  | .node v l r lvl => inorderL l ++ (v, lvl) :: inorderL r

/-- Number of nodes reachable from the root. -/
def size : Tree α → Nat
  | .nil => 0
  | .node _ l r _ => size l + size r + 1

/-- The strong AA-tree structural invariant (Andersson's discipline): the
left child sits exactly one level below its parent, and the right child sits
either exactly one level below, or on the same level with the right-right
grandchild exactly one level below. -/
def invar : Tree α → Prop
  | .nil => True
  | .node _ l r lvl =>
    invar l ∧ invar r ∧ lvl = levelOf l + 1 ∧
      (lvl = levelOf r + 1 ∨ (lvl = levelOf r ∧ lvl = levelOf (rightT r) + 1))

instance invarDecidable : (t : Tree α) → Decidable (invar t)
  | .nil => isTrue trivial
  | .node v l r lvl =>
    have : Decidable (invar l) := invarDecidable l
    have : Decidable (invar r) := invarDecidable r
    by unfold invar; infer_instance

/-- The four AA invariants exactly as the specification states them:
1. a leaf has level 1 (absent subtree has level 0);
2. a left child's level is strictly less than its parent's;
3. a right child's level is at most its parent's, and a right-right
   grandchild's level is strictly less than the grandparent's;
4. every node with level greater than 1 has both children present. -/
def specInv : Tree α → Prop
  | .nil => True
  | .node _ l r lvl =>
    (l = Tree.nil → r = Tree.nil → lvl = 1) ∧
    levelOf l < lvl ∧
    levelOf r ≤ lvl ∧
    levelOf (rightT r) < lvl ∧
    (1 < lvl → l ≠ Tree.nil ∧ r ≠ Tree.nil) ∧
    specInv l ∧ specInv r

instance nilDecidable : (t : Tree α) → Decidable (t = Tree.nil)
  | .nil => isTrue rfl
  | .node _ _ _ _ => isFalse (by intro h; exact Tree.noConfusion h)

instance specInvDecidable : (t : Tree α) → Decidable (specInv t)
  | .nil => isTrue trivial
  | .node v l r lvl =>
    have : Decidable (specInv l) := specInvDecidable l
    have : Decidable (specInv r) := specInvDecidable r
    by unfold specInv; infer_instance

/-- One facade operation, for stating properties over arbitrary operation
sequences. -/
inductive Op (K V : Type) where
  | ins (k : K) (v : V)
  | del (k : K)

/-- Apply one facade operation, discarding the out-of-band result. -/
def applyOp (m : KeyValueMap K V) : Op K V → KeyValueMap K V
  | .ins k v => (m.insert k v).2
  | .del k => (m.delete k).2

/-- Apply a sequence of facade operations in order. -/
def applyOps (m : KeyValueMap K V) : List (Op K V) → KeyValueMap K V
  | [] => m
  | op :: ops => applyOps (applyOp m op) ops

/-- A map state reachable from `KeyValueMap::new` by facade operations. -/
def Reachable (m : KeyValueMap K V) : Prop :=
  ∃ ops : List (Op K V), applyOps KeyValueMap.new ops = m

end AAMap
/-! ### Basic lemmas about the rotation primitives -/

namespace AAMap

variable {α : Type}

theorem inorder_skew (t : Tree α) : inorder (skew t) = inorder t := by
  match t with
  | .nil => rfl
  | .node v .nil r lvl => rfl
  | .node v (.node lv ll lr llev) r lvl =>
    simp only [skew]
    by_cases h : llev = lvl <;> simp [h, inorder]

theorem inorder_split (t : Tree α) : inorder (split t) = inorder t := by
  match t with
  | .nil => rfl
  | .node v l .nil lvl => rfl
  | .node v l (.node rv rl .nil rlev) lvl => rfl
  | .node v l (.node rv rl (.node rrv rrl rrr rrlev) rlev) lvl =>
    simp only [split]
    by_cases h : lvl = rrlev <;> simp [h, inorder]

theorem inorder_decrease_level (t : Tree α) :
    inorder (decrease_level t) = inorder t := by
  match t with
  | .nil => rfl
  | .node v l .nil lvl =>
    simp only [decrease_level]
    split <;> simp [inorder]
  | .node v l (.node rv rl rr rlev) lvl =>
    simp only [decrease_level]
    split
    · split <;> simp [inorder]
    · rfl

theorem inorder_mapRight (f : Tree α → Tree α)
    (hf : ∀ s, inorder (f s) = inorder s) (t : Tree α) :
    inorder (mapRight f t) = inorder t := by
  cases t <;> simp [mapRight, inorder, hf]

theorem inorder_rebalance (t : Tree α) : inorder (rebalance t) = inorder t := by
  unfold rebalance
  rw [inorder_mapRight split inorder_split, inorder_split,
    inorder_mapRight _ (fun s => by
      rw [inorder_mapRight skew inorder_skew, inorder_skew]),
    inorder_skew, inorder_decrease_level]

theorem size_eq_length_inorder (t : Tree α) : size t = (inorder t).length := by
  induction t with
  | nil => rfl
  | node v l r lvl ihl ihr => simp [size, inorder, ihl, ihr]; omega

/-! ### The rotation primitives and `decrease_level` are the identity on
trees satisfying the strong AA invariant -/

theorem invar_node {v : α} {l r : Tree α} {lvl : Nat} :
    invar (Tree.node v l r lvl) ↔
      invar l ∧ invar r ∧ lvl = levelOf l + 1 ∧
        (lvl = levelOf r + 1 ∨ (lvl = levelOf r ∧ lvl = levelOf (rightT r) + 1)) :=
  Iff.rfl

theorem skew_eq_of_invar {t : Tree α} (h : invar t) : skew t = t := by
  match t, h with
  | .nil, _ => rfl
  | .node v .nil r lvl, _ => rfl
  | .node v (.node lv ll lr llev) r lvl, h =>
    have hlev : lvl = levelOf (Tree.node lv ll lr llev) + 1 := h.2.2.1
    simp only [levelOf] at hlev
    have hne : llev ≠ lvl := by omega
    simp [skew, hne]

theorem split_eq_of_invar {t : Tree α} (h : invar t) : split t = t := by
  match t, h with
  | .nil, _ => rfl
  | .node v l .nil lvl, _ => rfl
  | .node v l (.node rv rl .nil rlev) lvl, _ => rfl
  | .node v l (.node rv rl (.node rrv rrl rrr rrlev) rlev) lvl, h =>
    have hrc := h.2.2.2
    have hrl : rlev = levelOf rl + 1 := h.2.1.2.2.1
    have hrrc := h.2.1.2.2.2
    simp only [levelOf, rightT] at hrc hrrc
    have hne : lvl ≠ rrlev := by
      rcases hrc with h1 | ⟨h1, h2⟩ <;> rcases hrrc with g1 | ⟨g1, g2⟩ <;> omega
    simp [split, hne]

theorem decrease_level_eq_of_invar {t : Tree α} (h : invar t) :
    decrease_level t = t := by
  match t, h with
  | .nil, _ => rfl
  | .node v l r lvl, h =>
    have h3 : lvl = levelOf l + 1 := h.2.2.1
    have h4 := h.2.2.2
    have hc : ¬ (min (levelOf l) (levelOf r) + 1 < lvl) := by
      rcases h4 with h4 | ⟨h4, -⟩ <;> omega
    simp [decrease_level, hc]

theorem rebalance_eq_of_invar {t : Tree α} (h : invar t) : rebalance t = t := by
  match t, h with
  | .nil, _ => rfl
  | .node v l r lvl, h =>
    unfold rebalance
    rw [decrease_level_eq_of_invar h, skew_eq_of_invar h]
    have hr : invar r := h.2.1
    have hmr : mapRight skew (skew r) = r := by
      rw [skew_eq_of_invar hr]
      match r, hr with
      | .nil, _ => rfl
      | .node rv rl rr rlev, hr => simp [mapRight, skew_eq_of_invar hr.2.1]
    have h1 : mapRight (fun s => mapRight skew (skew s)) (Tree.node v l r lvl)
        = Tree.node v l r lvl := by
      have hstep : mapRight (fun s => mapRight skew (skew s)) (Tree.node v l r lvl)
          = Tree.node v l (mapRight skew (skew r)) lvl := rfl
      rw [hstep, hmr]
    rw [h1, split_eq_of_invar h]
    have h2 : mapRight split (Tree.node v l r lvl)
        = Tree.node v l (split r) lvl := rfl
    rw [h2, split_eq_of_invar hr]

end AAMap

/-! ### Evaluation helpers for the rebalance analysis -/

namespace AAMap

variable {α : Type}

theorem mapRight_node {f : Tree α → Tree α} {v : α} {l r : Tree α} {lvl : Nat} :
    mapRight f (Tree.node v l r lvl) = Tree.node v l (f r) lvl := rfl

theorem skew_not_fire {v : α} {l r : Tree α} {lvl : Nat} (h : levelOf l ≠ lvl) :
    skew (Tree.node v l r lvl) = Tree.node v l r lvl := by
  match l with
  | .nil => rfl
  | .node lv ll lr llev =>
    simp only [levelOf] at h
    simp [skew, h]

theorem skew_fire {v lv : α} {ll lr r : Tree α} {lvl : Nat} :
    skew (Tree.node v (Tree.node lv ll lr lvl) r lvl) =
      Tree.node lv ll (Tree.node v lr r lvl) lvl := by
  simp [skew]

theorem split_not_fire {v : α} {l r : Tree α} {lvl : Nat}
    (h : levelOf (rightT r) ≠ lvl) :
    split (Tree.node v l r lvl) = Tree.node v l r lvl := by
  match r with
  | .nil => rfl
  | .node rv rl .nil rlev => rfl
  | .node rv rl (.node rrv rrl rrr rrlev) rlev =>
    have hne : ¬ (lvl = rrlev) := fun hh => h (by simp [rightT, levelOf, hh])
    simp [split, hne]

theorem split_fire {v rv rrv : α} {l rl rrl rrr : Tree α} {lvl rlev : Nat} :
    split (Tree.node v l (Tree.node rv rl (Tree.node rrv rrl rrr lvl) rlev) lvl) =
      Tree.node rv (Tree.node v l rl lvl) (Tree.node rrv rrl rrr lvl) (rlev + 1) := by
  simp [split]

theorem dec_not_fire {v : α} {l r : Tree α} {lvl : Nat}
    (h : ¬ (min (levelOf l) (levelOf r) + 1 < lvl)) :
    decrease_level (Tree.node v l r lvl) = Tree.node v l r lvl := by
  simp [decrease_level, h]

theorem dec_fire_nil {v : α} {l : Tree α} {lvl : Nat}
    (h1 : min (levelOf l) 0 + 1 < lvl) :
    decrease_level (Tree.node v l Tree.nil lvl) =
      Tree.node v l Tree.nil (min (levelOf l) 0 + 1) := by
  have e1 : decrease_level (Tree.node v l Tree.nil lvl)
      = if min (levelOf l) 0 + 1 < lvl then
          Tree.node v l Tree.nil (min (levelOf l) 0 + 1)
        else Tree.node v l Tree.nil lvl := rfl
  rw [e1, if_pos h1]

theorem dec_fire_keep {v rv : α} {l rl rr : Tree α} {lvl rlev : Nat}
    (h1 : min (levelOf l) rlev + 1 < lvl)
    (h2 : ¬ (min (levelOf l) rlev + 1 < rlev)) :
    decrease_level (Tree.node v l (Tree.node rv rl rr rlev) lvl) =
      Tree.node v l (Tree.node rv rl rr rlev) (min (levelOf l) rlev + 1) := by
  have e1 : decrease_level (Tree.node v l (Tree.node rv rl rr rlev) lvl)
      = if min (levelOf l) rlev + 1 < lvl then
          (if min (levelOf l) rlev + 1 < rlev then
            Tree.node v l (Tree.node rv rl rr (min (levelOf l) rlev + 1))
              (min (levelOf l) rlev + 1)
          else Tree.node v l (Tree.node rv rl rr rlev) (min (levelOf l) rlev + 1))
        else Tree.node v l (Tree.node rv rl rr rlev) lvl := rfl
  rw [e1, if_pos h1, if_neg h2]

theorem dec_fire_relevel {v rv : α} {l rl rr : Tree α} {lvl rlev : Nat}
    (h1 : min (levelOf l) rlev + 1 < lvl)
    (h2 : min (levelOf l) rlev + 1 < rlev) :
    decrease_level (Tree.node v l (Tree.node rv rl rr rlev) lvl) =
      Tree.node v l (Tree.node rv rl rr (min (levelOf l) rlev + 1))
        (min (levelOf l) rlev + 1) := by
  have e1 : decrease_level (Tree.node v l (Tree.node rv rl rr rlev) lvl)
      = if min (levelOf l) rlev + 1 < lvl then
          (if min (levelOf l) rlev + 1 < rlev then
            Tree.node v l (Tree.node rv rl rr (min (levelOf l) rlev + 1))
              (min (levelOf l) rlev + 1)
          else Tree.node v l (Tree.node rv rl rr rlev) (min (levelOf l) rlev + 1))
        else Tree.node v l (Tree.node rv rl rr rlev) lvl := rfl
  rw [e1, if_pos h1, if_pos h2]

theorem skews_eq_of_invar {r : Tree α} (hr : invar r) :
    mapRight skew (skew r) = r := by
  rw [skew_eq_of_invar hr]
  match r, hr with
  | .nil, _ => rfl
  | .node rv rl rr rlev, hr => simp [mapRight, skew_eq_of_invar hr.2.1]

theorem rightT_le_of_invar {r : Tree α} (hr : invar r) :
    levelOf (rightT r) ≤ levelOf r := by
  match r, hr with
  | .nil, _ => simp [rightT]
  | .node rv rl rr rlev, hr =>
    have := hr.2.2.2
    simp only [rightT, levelOf]
    rcases this with h | ⟨h, -⟩ <;> simp only [levelOf] at h <;> omega

theorem levelOf_pos_node {t : Tree α} (h : 0 < levelOf t) :
    ∃ v l r lvl, t = Tree.node v l r lvl := by
  match t with
  | .nil => simp [levelOf] at h
  | .node v l r lvl => exact ⟨v, l, r, lvl, rfl⟩

end AAMap

/-! ### The delete-side rebalance lemma

`rebalance_post` is the workhorse of the deletion analysis: if a node's
children are valid AA subtrees and the node's level is out of step by at
most one on either side (as happens after a deletion below), the rebalance
block restores the invariant, losing at most one level, and keeps the right
child non-horizontal whenever the right subtree was low. -/

namespace AAMap

variable {α : Type}

theorem levelOf_node {v : α} {l r : Tree α} {lvl : Nat} :
    levelOf (Tree.node v l r lvl) = lvl := rfl

theorem rightT_node {v : α} {l r : Tree α} {lvl : Nat} :
    rightT (Tree.node v l r lvl) = r := rfl

theorem dec_fire_keep2 {v : α} {l r : Tree α} {lvl : Nat}
    (h1 : min (levelOf l) (levelOf r) + 1 < lvl)
    (h2 : ¬ (min (levelOf l) (levelOf r) + 1 < levelOf r)) :
    decrease_level (Tree.node v l r lvl) =
      Tree.node v l r (min (levelOf l) (levelOf r) + 1) := by
  match r with
  | .nil => exact dec_fire_nil h1
  | .node rv rl rr rlev => exact dec_fire_keep h1 h2

theorem split_fire' {v rv : α} {l rl rr : Tree α} {lvl rlev : Nat}
    (h : levelOf rr = lvl) (hpos : 0 < lvl) :
    split (Tree.node v l (Tree.node rv rl rr rlev) lvl) =
      Tree.node rv (Tree.node v l rl lvl) rr (rlev + 1) := by
  obtain ⟨rrv, rrl, rrr, rrlev, rfl⟩ := levelOf_pos_node (h ▸ hpos)
  have hx : rrlev = lvl := h
  subst hx
  simp [split]

theorem rightT_cases_of_invar {r : Tree α} (hr : invar r) (hpos : 0 < levelOf r) :
    levelOf r = levelOf (rightT r) + 1 ∨
      (levelOf r = levelOf (rightT r) ∧
       levelOf r = levelOf (rightT (rightT r)) + 1) := by
  match r, hr with
  | .node rv rl rr rlev, hr =>
    have := hr.2.2.2
    simpa only [levelOf_node, rightT_node] using this

theorem rebalance_post (v : α) (l r : Tree α) (lvl : Nat)
    (hl : invar l) (hr : invar r)
    (hL : lvl = levelOf l + 1 ∨ lvl = levelOf l + 2)
    (hR : lvl = levelOf r + 1 ∨ lvl = levelOf r + 2 ∨
          (lvl = levelOf r ∧ lvl = levelOf (rightT r) + 1)) :
    invar (rebalance (Tree.node v l r lvl)) ∧
    (levelOf (rebalance (Tree.node v l r lvl)) = lvl ∨
     levelOf (rebalance (Tree.node v l r lvl)) + 1 = lvl) ∧
    (levelOf (rebalance (Tree.node v l r lvl)) = lvl → lvl ≠ levelOf r →
     levelOf (rightT (rebalance (Tree.node v l r lvl))) + 1 = lvl) := by
  have hrt := rightT_le_of_invar hr
  by_cases hdec : min (levelOf l) (levelOf r) + 1 < lvl
  case neg =>
    -- no level drop is needed: left child exactly one below, right one
    -- below or horizontal; the whole block is the identity
    have hll : lvl = levelOf l + 1 := by rcases hL with h | h <;> omega
    have h1 : rebalance (Tree.node v l r lvl)
        = mapRight split (split (Tree.node v l r lvl)) := by
      unfold rebalance
      rw [dec_not_fire hdec]
      rw [skew_not_fire (show levelOf l ≠ lvl by omega)]
      rw [mapRight_node, skews_eq_of_invar hr]
    by_cases hreq : levelOf r = lvl
    · have hrr : lvl = levelOf (rightT r) + 1 := by
        rcases hR with h | h | ⟨h, h2⟩ <;> omega
      rw [h1]
      rw [split_not_fire (show levelOf (rightT r) ≠ lvl by omega)]
      rw [mapRight_node, split_eq_of_invar hr]
      exact ⟨⟨hl, hr, hll, Or.inr ⟨hreq.symm, hrr⟩⟩, Or.inl rfl,
        fun _ hne => absurd hreq.symm hne⟩
    · have hr1 : lvl = levelOf r + 1 := by omega
      rw [h1]
      rw [split_not_fire (show levelOf (rightT r) ≠ lvl by omega)]
      rw [mapRight_node, split_eq_of_invar hr]
      refine ⟨⟨hl, hr, hll, Or.inl hr1⟩, Or.inl rfl, fun _ _ => ?_⟩
      simp only [rightT_node]
      omega
  case pos =>
    rcases hL with hL1 | hL2
    · -- case (c): left exactly one below, right necessarily two below
      have hR2 : lvl = levelOf r + 2 := by rcases hR with h | h | ⟨h, h2⟩ <;> omega
      obtain ⟨m, hm⟩ : ∃ m, lvl = m + 1 := ⟨levelOf l, hL1⟩
      obtain ⟨bv, bl, br, blev, rfl⟩ := levelOf_pos_node (show 0 < levelOf l by omega)
      have hblev : m = blev := by simp only [levelOf_node] at hL1; omega
      subst hblev
      obtain ⟨hb1, hb2, hb3, hb4⟩ := hl
      have hstart : rebalance (Tree.node v (Tree.node bv bl br m) r lvl)
          = mapRight split (split (Tree.node bv bl
              (mapRight skew (skew (Tree.node v br r m))) m)) := by
        unfold rebalance
        rw [dec_fire_keep2 (by simp only [levelOf_node]; omega)
          (by simp only [levelOf_node]; omega)]
        rw [show min (levelOf (Tree.node bv bl br m)) (levelOf r) + 1 = m by
          simp only [levelOf_node]; omega]
        rw [skew_fire, mapRight_node]
      rw [hstart]
      by_cases hbr : levelOf br = m
      · -- the old left child was right-horizontal: cascade, root split fires
        obtain ⟨cv, cl, cr, clev, rfl⟩ := levelOf_pos_node (show 0 < levelOf br by omega)
        have hclev : m = clev := by simp only [levelOf_node] at hbr; omega
        subst hclev
        obtain ⟨hc1, hc2, hc3, hc4⟩ := hb2
        have hcr : m = levelOf cr + 1 := by
          rcases hb4 with h | ⟨h, h2⟩
          · simp only [levelOf_node] at h; omega
          · simp only [levelOf_node, rightT_node] at h2; omega
        rw [skew_fire]
        rw [mapRight_node]
        rw [skew_not_fire (show levelOf cr ≠ m by omega)]
        rw [split_fire' (by simp only [levelOf_node]) (by omega)]
        rw [mapRight_node]
        rw [split_not_fire (show levelOf (rightT r) ≠ m by omega)]
        exact ⟨⟨⟨hb1, hc1, by first | omega | (simp only [levelOf_node, rightT_node] <;> omega),
            Or.inl (by first | omega | (simp only [levelOf_node, rightT_node] <;> omega))⟩,
          ⟨hc2, hr, by first | omega | (simp only [levelOf_node, rightT_node] <;> omega),
            Or.inl (by first | omega | (simp only [levelOf_node, rightT_node] <;> omega))⟩,
          by first | omega | (simp only [levelOf_node, rightT_node] <;> omega),
          Or.inl (by first | omega | (simp only [levelOf_node, rightT_node] <;> omega))⟩,
          Or.inl (by first | omega | (simp only [levelOf_node, rightT_node] <;> omega)),
          fun _ _ => by first | omega | (simp only [levelOf_node, rightT_node] <;> omega)⟩
      · -- no cascade: the node settles one level lower, right-horizontal
        have hbr1 : m = levelOf br + 1 := by
          rcases hb4 with h | ⟨h, h2⟩ <;> omega
        rw [skew_not_fire (show levelOf br ≠ m by omega)]
        rw [mapRight_node, skew_eq_of_invar hr]
        rw [split_not_fire (show levelOf (rightT (Tree.node v br r m)) ≠ m by
          simp only [rightT_node]; omega)]
        rw [mapRight_node]
        rw [split_not_fire (show levelOf (rightT r) ≠ m by omega)]
        exact ⟨⟨hb1, ⟨hb2, hr, by first | omega | (simp only [levelOf_node, rightT_node] <;> omega),
            Or.inl (by first | omega | (simp only [levelOf_node, rightT_node] <;> omega))⟩,
          by first | omega | (simp only [levelOf_node, rightT_node] <;> omega),
          Or.inr ⟨by first | omega | (simp only [levelOf_node, rightT_node] <;> omega),
            by first | omega | (simp only [levelOf_node, rightT_node] <;> omega)⟩⟩,
          Or.inr (by first | omega | (simp only [levelOf_node, rightT_node] <;> omega)),
          fun h2 _ => by first | omega | (simp only [levelOf_node, rightT_node] at h2 ⊢ <;> omega)⟩
    · rcases hR with hR1 | hR2 | ⟨hR3, hRR⟩
      · -- case (b1): left two below, right exactly one below
        obtain ⟨rv, rl_, rr_, rlev, rfl⟩ := levelOf_pos_node (show 0 < levelOf r by omega)
        simp only [levelOf_node] at hR1
        obtain ⟨hr1, hr2, hr3, hr4⟩ := hr
        simp only [levelOf_node, rightT_node] at hdec hr4
        have hinv : invar (Tree.node rv rl_ rr_ rlev) := ⟨hr1, hr2, hr3, hr4⟩
        by_cases hx : levelOf rr_ = rlev
        · -- right child internally right-horizontal: the root split fires
          have h1 : rebalance (Tree.node v l (Tree.node rv rl_ rr_ rlev) lvl)
              = Tree.node rv (Tree.node v l rl_ rlev) rr_ (rlev + 1) := by
            unfold rebalance
            rw [dec_fire_keep2 hdec (by simp only [levelOf_node]; omega)]
            simp only [levelOf_node]
            rw [show min (levelOf l) rlev + 1 = rlev by omega]
            rw [skew_not_fire (show levelOf l ≠ rlev by omega)]
            rw [mapRight_node, skews_eq_of_invar hinv]
            rw [split_fire' hx (by omega)]
            rw [mapRight_node, split_eq_of_invar hr2]
          rw [h1]
          simp only [levelOf_node, rightT_node]
          exact ⟨⟨⟨hl, hr1, by omega, Or.inl (by omega)⟩, hr2, rfl, Or.inl (by omega)⟩,
            Or.inl (by omega), fun _ _ => by omega⟩
        · -- no split fires; the node settles one level lower, right-horizontal
          have hrr1 : rlev = levelOf rr_ + 1 := by rcases hr4 with h | ⟨h, h2⟩ <;> omega
          have h1 : rebalance (Tree.node v l (Tree.node rv rl_ rr_ rlev) lvl)
              = Tree.node v l (Tree.node rv rl_ rr_ rlev) rlev := by
            unfold rebalance
            rw [dec_fire_keep2 hdec (by simp only [levelOf_node]; omega)]
            simp only [levelOf_node]
            rw [show min (levelOf l) rlev + 1 = rlev by omega]
            rw [skew_not_fire (show levelOf l ≠ rlev by omega)]
            rw [mapRight_node, skews_eq_of_invar hinv]
            rw [split_not_fire (show levelOf (rightT (Tree.node rv rl_ rr_ rlev)) ≠ rlev by
              simp only [rightT_node]; omega)]
            rw [mapRight_node, split_eq_of_invar hinv]
          rw [h1]
          simp only [levelOf_node, rightT_node]
          exact ⟨⟨hl, hinv, by omega,
            Or.inr ⟨rfl, by simp only [rightT_node]; omega⟩⟩, Or.inr (by omega),
            fun h2 _ => by omega⟩
      · -- case (a): both children two below; the node drops one level
        have hM : min (levelOf l) (levelOf r) + 1 + 1 = lvl := by omega
        have h1 : rebalance (Tree.node v l r lvl)
            = Tree.node v l r (min (levelOf l) (levelOf r) + 1) := by
          unfold rebalance
          rw [dec_fire_keep2 hdec (by omega)]
          rw [skew_not_fire (show levelOf l ≠ min (levelOf l) (levelOf r) + 1 by omega)]
          rw [mapRight_node, skews_eq_of_invar hr]
          rw [split_not_fire
            (show levelOf (rightT r) ≠ min (levelOf l) (levelOf r) + 1 by omega)]
          rw [mapRight_node, split_eq_of_invar hr]
        rw [h1]
        refine ⟨⟨hl, hr, by omega, Or.inl (by omega)⟩, ?_, ?_⟩
        · simp only [levelOf_node]; omega
        · simp only [levelOf_node, rightT_node]; intro h2 h3; omega
      · -- case (b2): left two below, right horizontal
        obtain ⟨rv, rl_, rr_, rlev, rfl⟩ := levelOf_pos_node (show 0 < levelOf r by omega)
        have hrlev : lvl = rlev := by simp only [levelOf_node] at hR3; omega
        subst hrlev
        simp only [rightT_node] at hRR
        obtain ⟨hr1, hr2, hr3, hr4⟩ := hr
        simp only [levelOf_node] at hdec hr3
        obtain ⟨m, hm⟩ : ∃ m, lvl = m + 1 := ⟨levelOf rr_, hRR⟩
        obtain ⟨bv, bl, br, blev, rfl⟩ := levelOf_pos_node (show 0 < levelOf rl_ by omega)
        have hblev : m = blev := by simp only [levelOf_node] at hr3; omega
        subst hblev
        obtain ⟨hb1, hb2, hb3, hb4⟩ := hr1
        have hstart : rebalance (Tree.node v l
              (Tree.node rv (Tree.node bv bl br m) rr_ lvl) lvl)
            = mapRight split (split (Tree.node v l
                (mapRight skew (skew (Tree.node rv (Tree.node bv bl br m) rr_ m))) m)) := by
          unfold rebalance
          rw [dec_fire_relevel (by omega) (by omega)]
          rw [show min (levelOf l) lvl + 1 = m by omega]
          rw [skew_not_fire (show levelOf l ≠ m by omega)]
          rw [mapRight_node]
        rw [hstart, skew_fire, mapRight_node]
        by_cases hbr : levelOf br = m
        · -- left child of the dropped right node is right-horizontal too:
          -- second skew fires, then both splits fire
          obtain ⟨cv, cl, cr, clev, rfl⟩ := levelOf_pos_node (show 0 < levelOf br by omega)
          have hclev : m = clev := by simp only [levelOf_node] at hbr; omega
          subst hclev
          obtain ⟨hc1, hc2, hc3, hc4⟩ := hb2
          have hcr : m = levelOf cr + 1 := by
            rcases hb4 with h | ⟨h, h2⟩
            · simp only [levelOf_node] at h; omega
            · simp only [levelOf_node, rightT_node] at h2; omega
          rw [skew_fire]
          rw [split_fire' (by simp only [levelOf_node]) (by omega)]
          rw [mapRight_node]
          rw [split_fire' (show levelOf rr_ = m by omega) (by omega)]
          exact ⟨⟨⟨hl, hb1, by first | omega | (simp only [levelOf_node, rightT_node] <;> omega),
              Or.inl (by first | omega | (simp only [levelOf_node, rightT_node] <;> omega))⟩,
            ⟨⟨hc1, hc2, by first | omega | (simp only [levelOf_node, rightT_node] <;> omega),
                Or.inl (by first | omega | (simp only [levelOf_node, rightT_node] <;> omega))⟩,
              hr2, by first | omega | (simp only [levelOf_node, rightT_node] <;> omega),
              Or.inl (by first | omega | (simp only [levelOf_node, rightT_node] <;> omega))⟩,
            by first | omega | (simp only [levelOf_node, rightT_node] <;> omega),
            Or.inr ⟨by first | omega | (simp only [levelOf_node, rightT_node] <;> omega),
              by first | omega | (simp only [levelOf_node, rightT_node] <;> omega)⟩⟩,
            Or.inl (by first | omega | (simp only [levelOf_node, rightT_node] <;> omega)),
            fun _ h3 => (h3 rfl).elim⟩
        · -- second skew does not fire; root split fires, and the split of
          -- the new right child fires or not with the right-right grandchild
          have hbr1 : m = levelOf br + 1 := by
            rcases hb4 with h | ⟨h, h2⟩ <;> omega
          rw [skew_not_fire (show levelOf br ≠ m by omega)]
          rw [split_fire' (by simp only [levelOf_node]) (by omega)]
          rw [mapRight_node]
          have hrr2 := rightT_le_of_invar hr2
          by_cases hz : levelOf (rightT rr_) = m
          · obtain ⟨dv, dl, dr, dlev, rfl⟩ := levelOf_pos_node (show 0 < levelOf rr_ by omega)
            simp only [rightT_node] at hz hrr2
            have hdlev : m = dlev := by
              have := hRR; simp only [levelOf_node] at this; omega
            subst hdlev
            obtain ⟨hd1, hd2, hd3, hd4⟩ := hr2
            rw [split_fire' (show levelOf dr = m from hz) (by omega)]
            exact ⟨⟨⟨hl, hb1, by first | omega | (simp only [levelOf_node, rightT_node] <;> omega),
                Or.inl (by first | omega | (simp only [levelOf_node, rightT_node] <;> omega))⟩,
              ⟨⟨hb2, hd1, by first | omega | (simp only [levelOf_node, rightT_node] <;> omega),
                  Or.inl (by first | omega | (simp only [levelOf_node, rightT_node] <;> omega))⟩,
                hd2, by first | omega | (simp only [levelOf_node, rightT_node] <;> omega),
                Or.inl (by first | omega | (simp only [levelOf_node, rightT_node] <;> omega))⟩,
              by first | omega | (simp only [levelOf_node, rightT_node] <;> omega),
              Or.inr ⟨by first | omega | (simp only [levelOf_node, rightT_node] <;> omega),
                by first | omega | (simp only [levelOf_node, rightT_node] <;> omega)⟩⟩,
              Or.inl (by first | omega | (simp only [levelOf_node, rightT_node] <;> omega)),
              fun _ h3 => (h3 rfl).elim⟩
          · rw [split_not_fire (show levelOf (rightT rr_) ≠ m from hz)]
            have hcase := rightT_cases_of_invar hr2 (show 0 < levelOf rr_ by omega)
            have hzz : levelOf rr_ = levelOf (rightT rr_) + 1 := by
              rcases hcase with h | ⟨h, h2⟩ <;> omega
            exact ⟨⟨⟨hl, hb1, by first | omega | (simp only [levelOf_node, rightT_node] <;> omega),
                Or.inl (by first | omega | (simp only [levelOf_node, rightT_node] <;> omega))⟩,
              ⟨hb2, hr2, by first | omega | (simp only [levelOf_node, rightT_node] <;> omega),
                Or.inr ⟨by first | omega | (simp only [levelOf_node, rightT_node] <;> omega),
                  by first | omega | (simp only [levelOf_node, rightT_node] <;> omega)⟩⟩,
              by first | omega | (simp only [levelOf_node, rightT_node] <;> omega),
              Or.inl (by first | omega | (simp only [levelOf_node, rightT_node] <;> omega))⟩,
              Or.inl (by first | omega | (simp only [levelOf_node, rightT_node] <;> omega)),
              fun _ h3 => (h3 rfl).elim⟩

end AAMap

/-! ### Invariant preservation for the fused extractions and delete -/

namespace AAMap

variable {α : Type}

theorem successor_nil {v : α} {r : Tree α} {lvl : Nat} :
    successor v Tree.nil r lvl = (r, v, lvl) := rfl

theorem successor_node {v lv : α} {ll lr r : Tree α} {llev lvl : Nat} :
    successor v (Tree.node lv ll lr llev) r lvl =
      (rebalance (Tree.node v (successor lv ll lr llev).1 r lvl),
        (successor lv ll lr llev).2) := rfl

theorem predecessor_nil {v : α} {l : Tree α} {lvl : Nat} :
    predecessor v l Tree.nil lvl = (l, v, lvl) := rfl

theorem predecessor_node {v rv : α} {l rl rr : Tree α} {rlev lvl : Nat} :
    predecessor v l (Tree.node rv rl rr rlev) lvl =
      (rebalance (Tree.node v l (predecessor rv rl rr rlev).1 lvl),
        (predecessor rv rl rr rlev).2) := rfl

theorem levelOf_nil : levelOf (Tree.nil : Tree α) = 0 := rfl

theorem rightT_nil : rightT (Tree.nil : Tree α) = Tree.nil := rfl

theorem successor_post (l : Tree α) : ∀ (v : α) (r : Tree α) (lvl : Nat),
    invar (Tree.node v l r lvl) →
    invar (successor v l r lvl).1 ∧
    (levelOf (successor v l r lvl).1 = lvl ∨
     levelOf (successor v l r lvl).1 + 1 = lvl) ∧
    (levelOf (successor v l r lvl).1 = lvl → lvl = levelOf r + 1 →
     levelOf (rightT (successor v l r lvl).1) + 1 = lvl) := by
  induction l with
  | nil =>
    intro v r lvl h
    obtain ⟨-, hr, hlev, hrc⟩ := h
    simp only [levelOf_nil] at hlev
    rw [successor_nil]
    dsimp only
    refine ⟨hr, ?_, ?_⟩
    · rcases hrc with h1 | ⟨h1, h2⟩ <;> omega
    · intro h1 h2; omega
  | node lv ll lr llev ihl ihr =>
    intro v r lvl h
    obtain ⟨hl, hr, hlev, hrc⟩ := h
    simp only [levelOf_node] at hlev
    have ih := ihl lv lr llev hl
    have hLarg : lvl = levelOf (successor lv ll lr llev).1 + 1 ∨
        lvl = levelOf (successor lv ll lr llev).1 + 2 := by
      rcases ih.2.1 with h1 | h1 <;> omega
    have hRarg : lvl = levelOf r + 1 ∨ lvl = levelOf r + 2 ∨
        (lvl = levelOf r ∧ lvl = levelOf (rightT r) + 1) := by
      rcases hrc with h1 | ⟨h1, h2⟩
      · exact Or.inl h1
      · exact Or.inr (Or.inr ⟨h1, h2⟩)
    have post := rebalance_post v (successor lv ll lr llev).1 r lvl ih.1 hr hLarg hRarg
    rw [successor_node]
    exact ⟨post.1, post.2.1, fun h1 h2 => post.2.2 h1 (by omega)⟩

theorem predecessor_post (r : Tree α) : ∀ (v : α) (l : Tree α) (lvl : Nat),
    invar (Tree.node v l r lvl) →
    invar (predecessor v l r lvl).1 ∧
    (levelOf (predecessor v l r lvl).1 = lvl ∨
     levelOf (predecessor v l r lvl).1 + 1 = lvl) ∧
    (levelOf (predecessor v l r lvl).1 = lvl → lvl = levelOf r + 1 →
     levelOf (rightT (predecessor v l r lvl).1) + 1 = lvl) := by
  induction r with
  | nil =>
    intro v l lvl h
    obtain ⟨hl, -, hlev, hrc⟩ := h
    have hlvl : lvl = 1 := by
      rcases hrc with h1 | ⟨h1, h2⟩ <;> simp only [levelOf_nil] at h1 <;> omega
    rw [predecessor_nil]
    dsimp only
    refine ⟨hl, by omega, ?_⟩
    intro h1 h2
    simp only [levelOf_nil] at h2
    omega
  | node rv rl rr rlev ihl ihr =>
    intro v l lvl h
    obtain ⟨hl, hr, hlev, hrc⟩ := h
    simp only [levelOf_node, rightT_node] at hrc
    have ih := ihr rv rl rlev hr
    have hRarg : lvl = levelOf (predecessor rv rl rr rlev).1 + 1 ∨
        lvl = levelOf (predecessor rv rl rr rlev).1 + 2 ∨
        (lvl = levelOf (predecessor rv rl rr rlev).1 ∧
         lvl = levelOf (rightT (predecessor rv rl rr rlev).1) + 1) := by
      rcases hrc with h1 | ⟨h1, h2⟩
      · rcases ih.2.1 with g | g
        · exact Or.inl (by omega)
        · exact Or.inr (Or.inl (by omega))
      · rcases ih.2.1 with g | g
        · have harr : rlev = levelOf rr + 1 := by omega
          have h3 := ih.2.2 g harr
          exact Or.inr (Or.inr ⟨by omega, by omega⟩)
        · exact Or.inl (by omega)
    have post := rebalance_post v l (predecessor rv rl rr rlev).1 lvl hl ih.1
      (Or.inl hlev) hRarg
    rw [predecessor_node]
    exact ⟨post.1, post.2.1, fun h1 h2 => post.2.2 h1
      (by simp only [levelOf_node] at h2; omega)⟩

end AAMap

namespace AAMap

variable {K V : Type} [LinearOrder K]

theorem delete_nil {x : KeyValuePair K V} :
    delete (Tree.nil : Tree (KeyValuePair K V)) x = (Tree.nil, none) := rfl

theorem delete_lt {v x : KeyValuePair K V} {l r : Tree (KeyValuePair K V)} {lvl : Nat}
    (h : x.key < v.key) :
    delete (Tree.node v l r lvl) x =
      (rebalance (Tree.node v (delete l x).1 r lvl), (delete l x).2) := by
  simp only [delete]
  rw [if_pos h]

theorem delete_gt {v x : KeyValuePair K V} {l r : Tree (KeyValuePair K V)} {lvl : Nat}
    (h1 : ¬ x.key < v.key) (h2 : v.key < x.key) :
    delete (Tree.node v l r lvl) x =
      (rebalance (Tree.node v l (delete r x).1 lvl), (delete r x).2) := by
  simp only [delete]
  rw [if_neg h1, if_pos h2]

theorem delete_eq_leaf {v x : KeyValuePair K V} {lvl : Nat}
    (h1 : ¬ x.key < v.key) (h2 : ¬ v.key < x.key) :
    delete (Tree.node v Tree.nil Tree.nil lvl) x = (Tree.nil, some (v, lvl)) := by
  simp only [delete]
  rw [if_neg h1, if_neg h2]

theorem delete_eq_succ {v x rv : KeyValuePair K V} {rl rr : Tree (KeyValuePair K V)}
    {lvl rlev : Nat} (h1 : ¬ x.key < v.key) (h2 : ¬ v.key < x.key) :
    delete (Tree.node v Tree.nil (Tree.node rv rl rr rlev) lvl) x =
      (rebalance (Tree.node (successor rv rl rr rlev).2.1 Tree.nil
        (successor rv rl rr rlev).1 lvl), some (v, (successor rv rl rr rlev).2.2)) := by
  simp only [delete]
  rw [if_neg h1, if_neg h2]

theorem delete_eq_pred {v x lv : KeyValuePair K V} {ll lr r : Tree (KeyValuePair K V)}
    {lvl llev : Nat} (h1 : ¬ x.key < v.key) (h2 : ¬ v.key < x.key) :
    delete (Tree.node v (Tree.node lv ll lr llev) r lvl) x =
      (rebalance (Tree.node (predecessor lv ll lr llev).2.1
        (predecessor lv ll lr llev).1 r lvl),
       some (v, (predecessor lv ll lr llev).2.2)) := by
  simp only [delete]
  rw [if_neg h1, if_neg h2]

theorem delete_post (t : Tree (KeyValuePair K V)) (x : KeyValuePair K V)
    (h : invar t) :
    invar (delete t x).1 ∧
    (levelOf (delete t x).1 = levelOf t ∨ levelOf (delete t x).1 + 1 = levelOf t) ∧
    (levelOf (delete t x).1 = levelOf t → levelOf t = levelOf (rightT t) + 1 →
     levelOf (rightT (delete t x).1) + 1 = levelOf t) := by
  induction t with
  | nil => exact ⟨trivial, Or.inl rfl, fun _ h2 => by simp [levelOf, rightT] at h2⟩
  | node v l r lvl ihl ihr =>
    obtain ⟨hl, hr, hlev, hrc⟩ := h
    by_cases hxv : x.key < v.key
    · rw [delete_lt hxv]
      have ih := ihl hl
      have post := rebalance_post v (delete l x).1 r lvl ih.1 hr
        (by rcases ih.2.1 with g | g <;> omega)
        (by rcases hrc with h1 | ⟨h1, h2⟩
            · exact Or.inl h1
            · exact Or.inr (Or.inr ⟨h1, h2⟩))
      exact ⟨post.1, by simp only [levelOf_node]; exact post.2.1,
        fun g1 g2 => by
          simp only [levelOf_node] at g1
          simp only [levelOf_node, rightT_node] at g2
          exact post.2.2 g1 (by omega)⟩
    · by_cases hvx : v.key < x.key
      · rw [delete_gt hxv hvx]
        have ih := ihr hr
        have hRarg : lvl = levelOf (delete r x).1 + 1 ∨
            lvl = levelOf (delete r x).1 + 2 ∨
            (lvl = levelOf (delete r x).1 ∧
             lvl = levelOf (rightT (delete r x).1) + 1) := by
          rcases hrc with h1 | ⟨h1, h2⟩
          · rcases ih.2.1 with g | g
            · exact Or.inl (by omega)
            · exact Or.inr (Or.inl (by omega))
          · rcases ih.2.1 with g | g
            · have harr : levelOf r = levelOf (rightT r) + 1 := by omega
              have h3 := ih.2.2 g harr
              exact Or.inr (Or.inr ⟨by omega, by omega⟩)
            · exact Or.inl (by omega)
        have post := rebalance_post v l (delete r x).1 lvl hl ih.1
          (Or.inl hlev) hRarg
        exact ⟨post.1, by simp only [levelOf_node]; exact post.2.1,
          fun g1 g2 => by
            simp only [levelOf_node] at g1
            simp only [levelOf_node, rightT_node] at g2
            exact post.2.2 g1 (by omega)⟩
      · match l, hl, hlev, hrc with
        | Tree.nil, _, hlev, hrc =>
          simp only [levelOf_nil] at hlev
          match r, hr, hrc with
          | Tree.nil, _, hrc =>
            rw [delete_eq_leaf hxv hvx]
            refine ⟨trivial, Or.inr (by simp only [levelOf_nil, levelOf_node]; omega),
              fun g1 g2 => ?_⟩
            simp only [levelOf_nil, levelOf_node] at g1
            omega
          | Tree.node rv rl rr rlev, hr, hrc =>
            simp only [levelOf_node, rightT_node] at hrc
            have hrl1 : rlev = levelOf rl + 1 := hr.2.2.1
            have hcase : lvl = rlev ∧ lvl = levelOf rr + 1 := by
              rcases hrc with h1 | h1
              · omega
              · exact h1
            rw [delete_eq_succ hxv hvx]
            have spost := successor_post rl rv rr rlev hr
            have post := rebalance_post (successor rv rl rr rlev).2.1 Tree.nil
              (successor rv rl rr rlev).1 lvl trivial spost.1
              (Or.inl (by simp only [levelOf_nil]; omega))
              (by rcases spost.2.1 with g | g
                  · exact Or.inr (Or.inr ⟨by omega,
                      by have := spost.2.2 g (by omega); omega⟩)
                  · exact Or.inl (by omega))
            exact ⟨post.1, by simp only [levelOf_node]; exact post.2.1,
              fun g1 g2 => by
                simp only [levelOf_node] at g1
                simp only [levelOf_node, rightT_node] at g2
                omega⟩
        | Tree.node lv ll lr llev, hl, hlev, hrc =>
          simp only [levelOf_node] at hlev
          rw [delete_eq_pred hxv hvx]
          have ppost := predecessor_post lr lv ll llev hl
          have post := rebalance_post (predecessor lv ll lr llev).2.1
            (predecessor lv ll lr llev).1 r lvl ppost.1 hr
            (by rcases ppost.2.1 with g | g <;> omega)
            (by rcases hrc with h1 | ⟨h1, h2⟩
                · exact Or.inl h1
                · exact Or.inr (Or.inr ⟨h1, h2⟩))
          exact ⟨post.1, by simp only [levelOf_node]; exact post.2.1,
            fun g1 g2 => by
              simp only [levelOf_node] at g1
              simp only [levelOf_node, rightT_node] at g2
              exact post.2.2 g1 (by omega)⟩

end AAMap

namespace AAMap

variable {K V : Type} [LinearOrder K]

theorem skew_fire2 {α : Type} {v lv : α} {ll lr r : Tree α} {llev lvl : Nat}
    (h : llev = lvl) :
    skew (Tree.node v (Tree.node lv ll lr llev) r lvl) =
      Tree.node lv ll (Tree.node v lr r lvl) llev := by
  subst h; exact skew_fire

theorem insert_nil_snd {x : KeyValuePair K V} :
    (insert (Tree.nil : Tree (KeyValuePair K V)) x Tree.nil Tree.nil 1).2 =
      Tree.node x Tree.nil Tree.nil 1 := rfl

theorem insert_nil_fst {x : KeyValuePair K V} {xl xr : Tree (KeyValuePair K V)}
    {xlev : Nat} :
    (insert (Tree.nil : Tree (KeyValuePair K V)) x xl xr xlev).1 = true := rfl

theorem insert_lt_snd {v x : KeyValuePair K V} {l r xl xr : Tree (KeyValuePair K V)}
    {lvl xlev : Nat} (h : x.key < v.key) :
    (insert (Tree.node v l r lvl) x xl xr xlev).2 =
      split (skew (Tree.node v (insert l x xl xr xlev).2 r lvl)) := by
  simp only [insert]
  rw [if_pos h]

theorem insert_lt_fst {v x : KeyValuePair K V} {l r xl xr : Tree (KeyValuePair K V)}
    {lvl xlev : Nat} (h : x.key < v.key) :
    (insert (Tree.node v l r lvl) x xl xr xlev).1 = (insert l x xl xr xlev).1 := by
  simp only [insert]
  rw [if_pos h]

theorem insert_gt_snd {v x : KeyValuePair K V} {l r xl xr : Tree (KeyValuePair K V)}
    {lvl xlev : Nat} (h1 : ¬ x.key < v.key) (h2 : v.key < x.key) :
    (insert (Tree.node v l r lvl) x xl xr xlev).2 =
      split (skew (Tree.node v l (insert r x xl xr xlev).2 lvl)) := by
  simp only [insert]
  rw [if_neg h1, if_pos h2]

theorem insert_gt_fst {v x : KeyValuePair K V} {l r xl xr : Tree (KeyValuePair K V)}
    {lvl xlev : Nat} (h1 : ¬ x.key < v.key) (h2 : v.key < x.key) :
    (insert (Tree.node v l r lvl) x xl xr xlev).1 = (insert r x xl xr xlev).1 := by
  simp only [insert]
  rw [if_neg h1, if_pos h2]

theorem insert_dup_snd {v x : KeyValuePair K V} {l r xl xr : Tree (KeyValuePair K V)}
    {lvl xlev : Nat} (h1 : ¬ x.key < v.key) (h2 : ¬ v.key < x.key) :
    (insert (Tree.node v l r lvl) x xl xr xlev).2 =
      split (skew (Tree.node v l r lvl)) := by
  simp only [insert]
  rw [if_neg h1, if_neg h2]

theorem insert_dup_fst {v x : KeyValuePair K V} {l r xl xr : Tree (KeyValuePair K V)}
    {lvl xlev : Nat} (h1 : ¬ x.key < v.key) (h2 : ¬ v.key < x.key) :
    (insert (Tree.node v l r lvl) x xl xr xlev).1 = false := by
  simp only [insert]
  rw [if_neg h1, if_neg h2]

theorem insert_post (t : Tree (KeyValuePair K V)) (x : KeyValuePair K V)
    (h : invar t) :
    invar (insert t x Tree.nil Tree.nil 1).2 ∧
    (levelOf (insert t x Tree.nil Tree.nil 1).2 = levelOf t ∨
     (levelOf (insert t x Tree.nil Tree.nil 1).2 = levelOf t + 1 ∧
      levelOf (rightT (insert t x Tree.nil Tree.nil 1).2) + 1
        = levelOf (insert t x Tree.nil Tree.nil 1).2 ∧
      (t = Tree.nil ∨ levelOf (rightT t) = levelOf t))) := by
  induction t with
  | nil =>
    rw [insert_nil_snd]
    exact ⟨⟨trivial, trivial, rfl, Or.inl rfl⟩,
      Or.inr ⟨rfl, rfl, Or.inl rfl⟩⟩
  | node v l r lvl ihl ihr =>
    obtain ⟨hl, hr, hlev, hrc⟩ := h
    have hrt := rightT_le_of_invar hr
    by_cases hxv : x.key < v.key
    · -- descend left
      rw [insert_lt_snd hxv]
      have ih := ihl hl
      rcases ih.2 with hsame | ⟨hgrow, hgrt, hgc⟩
      · -- left child level unchanged: neither rotation fires
        rw [skew_not_fire (show levelOf (insert l x Tree.nil Tree.nil 1).2 ≠ lvl by first | omega | (simp only [levelOf_node, rightT_node, levelOf_nil] <;> omega))]
        rw [split_not_fire (show levelOf (rightT r) ≠ lvl by
          rcases hrc with h1 | ⟨h1, h2⟩ <;> omega)]
        exact ⟨⟨ih.1, hr, by first | omega | (simp only [levelOf_node, rightT_node, levelOf_nil] <;> omega), hrc⟩, Or.inl (by first | omega | (simp only [levelOf_node, rightT_node, levelOf_nil] <;> omega))⟩
      · -- left child grew to the node's level: skew fires
        obtain ⟨bv, bl, br, blev, heq⟩ :=
          levelOf_pos_node (show 0 < levelOf (insert l x Tree.nil Tree.nil 1).2 by first | omega | (simp only [levelOf_node, rightT_node, levelOf_nil] <;> omega))
        rw [heq] at hgrow hgrt ⊢
        simp only [levelOf_node, rightT_node] at hgrow hgrt
        have hinv' := ih.1
        rw [heq] at hinv'
        obtain ⟨hb1, hb2, hb3, hb4⟩ := hinv'
        rw [skew_fire2 (show blev = lvl by first | omega | (simp only [levelOf_node, rightT_node, levelOf_nil] <;> omega))]
        rcases hrc with h1 | ⟨h1, h2⟩
        · -- right child one below: no split, level preserved
          rw [split_not_fire (show levelOf (rightT (Tree.node v br r lvl)) ≠ blev by
            simp only [rightT_node]; omega)]
          exact ⟨⟨hb1, ⟨hb2, hr, by first | omega | (simp only [levelOf_node, rightT_node, levelOf_nil] <;> omega), Or.inl (by first | omega | (simp only [levelOf_node, rightT_node, levelOf_nil] <;> omega))⟩,
            by first | omega | (simp only [levelOf_node, rightT_node, levelOf_nil] <;> omega),
            Or.inr ⟨by first | omega | (simp only [levelOf_node, rightT_node, levelOf_nil] <;> omega),
              by first | omega | (simp only [levelOf_node, rightT_node, levelOf_nil] <;> omega)⟩⟩,
            Or.inl (by first | omega | (simp only [levelOf_node, rightT_node, levelOf_nil] <;> omega))⟩
        · -- right child horizontal: split fires and the node grows
          rw [split_fire' (show levelOf r = blev by
            first | omega | (simp only [levelOf_node, rightT_node, levelOf_nil] <;> omega)) (by first | omega | (simp only [levelOf_node, rightT_node, levelOf_nil] <;> omega))]
          exact ⟨⟨⟨hb1, hb2, by first | omega | (simp only [levelOf_node, rightT_node, levelOf_nil] <;> omega), Or.inl (by first | omega | (simp only [levelOf_node, rightT_node, levelOf_nil] <;> omega))⟩, hr,
            by first | omega | (simp only [levelOf_node, rightT_node, levelOf_nil] <;> omega),
            Or.inl (by first | omega | (simp only [levelOf_node, rightT_node, levelOf_nil] <;> omega))⟩,
            Or.inr ⟨by first | omega | (simp only [levelOf_node, rightT_node, levelOf_nil] <;> omega),
              by first | omega | (simp only [levelOf_node, rightT_node, levelOf_nil] <;> omega),
              Or.inr (by first | omega | (simp only [levelOf_node, rightT_node, levelOf_nil] <;> omega))⟩⟩
    · by_cases hvx : v.key < x.key
      · -- descend right
        rw [insert_gt_snd hxv hvx]
        have ih := ihr hr
        have hrt' := rightT_le_of_invar ih.1
        rw [skew_not_fire (show levelOf l ≠ lvl by first | omega | (simp only [levelOf_node, rightT_node, levelOf_nil] <;> omega))]
        rcases ih.2 with hsame | ⟨hgrow, hgrt, hgc⟩
        · rcases hrc with h1 | ⟨h1, h2⟩
          · -- right child one below, unchanged: no split
            rw [split_not_fire
              (show levelOf (rightT (insert r x Tree.nil Tree.nil 1).2) ≠ lvl by first | omega | (simp only [levelOf_node, rightT_node, levelOf_nil] <;> omega))]
            exact ⟨⟨hl, ih.1, hlev, Or.inl (by first | omega | (simp only [levelOf_node, rightT_node, levelOf_nil] <;> omega))⟩,
              Or.inl (by first | omega | (simp only [levelOf_node, rightT_node, levelOf_nil] <;> omega))⟩
          · -- right child horizontal, unchanged level: split fires only if
            -- the new right-right is horizontal too
            by_cases hz : levelOf (rightT (insert r x Tree.nil Tree.nil 1).2) = lvl
            · obtain ⟨cv, cl, cr, clev, heq⟩ :=
                levelOf_pos_node
                  (show 0 < levelOf (insert r x Tree.nil Tree.nil 1).2 by first | omega | (simp only [levelOf_node, rightT_node, levelOf_nil] <;> omega))
              rw [heq] at hz hsame ⊢
              simp only [levelOf_node, rightT_node] at hz hsame
              have hinv' := ih.1
              rw [heq] at hinv'
              obtain ⟨hc1, hc2, hc3, hc4⟩ := hinv'
              rw [split_fire' (show levelOf cr = lvl from hz) (by first | omega | (simp only [levelOf_node, rightT_node, levelOf_nil] <;> omega))]
              exact ⟨⟨⟨hl, hc1, by first | omega | (simp only [levelOf_node, rightT_node, levelOf_nil] <;> omega), Or.inl (by first | omega | (simp only [levelOf_node, rightT_node, levelOf_nil] <;> omega))⟩, hc2,
                by first | omega | (simp only [levelOf_node, rightT_node, levelOf_nil] <;> omega),
                Or.inl (by first | omega | (simp only [levelOf_node, rightT_node, levelOf_nil] <;> omega))⟩,
                Or.inr ⟨by first | omega | (simp only [levelOf_node, rightT_node, levelOf_nil] <;> omega),
                  by first | omega | (simp only [levelOf_node, rightT_node, levelOf_nil] <;> omega),
                  Or.inr (by first | omega | (simp only [levelOf_node, rightT_node, levelOf_nil] <;> omega))⟩⟩
            · rw [split_not_fire hz]
              have hcase := rightT_cases_of_invar ih.1 (by first | omega | (simp only [levelOf_node, rightT_node, levelOf_nil] <;> omega))
              exact ⟨⟨hl, ih.1, hlev, Or.inr ⟨by first | omega | (simp only [levelOf_node, rightT_node, levelOf_nil] <;> omega), by first | omega | (simp only [levelOf_node, rightT_node, levelOf_nil] <;> omega)⟩⟩,
                Or.inl (by first | omega | (simp only [levelOf_node, rightT_node, levelOf_nil] <;> omega))⟩
        · -- right child grew
          rcases hrc with h1 | ⟨h1, h2⟩
          · -- was one below, now horizontal; its right is one below: no split
            rw [split_not_fire
              (show levelOf (rightT (insert r x Tree.nil Tree.nil 1).2) ≠ lvl by first | omega | (simp only [levelOf_node, rightT_node, levelOf_nil] <;> omega))]
            exact ⟨⟨hl, ih.1, hlev, Or.inr ⟨by first | omega | (simp only [levelOf_node, rightT_node, levelOf_nil] <;> omega), by first | omega | (simp only [levelOf_node, rightT_node, levelOf_nil] <;> omega)⟩⟩,
              Or.inl (by first | omega | (simp only [levelOf_node, rightT_node, levelOf_nil] <;> omega))⟩
          · -- was horizontal: growth is impossible (its right was one below)
            exfalso
            rcases hgc with hnil | hhor
            · rw [hnil] at h1; simp only [levelOf_nil] at h1; omega
            · omega
      · -- duplicate key: the tree is left untouched and the rotations are no-ops
        rw [insert_dup_snd hxv hvx]
        have hinv : invar (Tree.node v l r lvl) := ⟨hl, hr, hlev, hrc⟩
        rw [skew_eq_of_invar hinv, split_eq_of_invar hinv]
        exact ⟨hinv, Or.inl rfl⟩

end AAMap

/-! ### Structural identity on the no-op paths -/

namespace AAMap

variable {K V : Type} [LinearOrder K]

/-- A duplicate insert hands the tree back unchanged, node for node. -/
theorem insert_dup_id (t : Tree (KeyValuePair K V)) (x : KeyValuePair K V)
    (h : invar t) (hres : (insert t x Tree.nil Tree.nil 1).1 = false) :
    (insert t x Tree.nil Tree.nil 1).2 = t := by
  induction t with
  | nil => rw [insert_nil_fst] at hres; exact absurd hres (by simp)
  | node v l r lvl ihl ihr =>
    obtain ⟨hl, hr, hlev, hrc⟩ := h
    have hinv : invar (Tree.node v l r lvl) := ⟨hl, hr, hlev, hrc⟩
    by_cases hxv : x.key < v.key
    · rw [insert_lt_fst hxv] at hres
      rw [insert_lt_snd hxv, ihl hl hres,
        skew_eq_of_invar hinv, split_eq_of_invar hinv]
    · by_cases hvx : v.key < x.key
      · rw [insert_gt_fst hxv hvx] at hres
        rw [insert_gt_snd hxv hvx, ihr hr hres,
          skew_eq_of_invar hinv, split_eq_of_invar hinv]
      · rw [insert_dup_snd hxv hvx,
          skew_eq_of_invar hinv, split_eq_of_invar hinv]

/-- Deleting a key that is not found hands the tree back unchanged. -/
theorem delete_absent_id (t : Tree (KeyValuePair K V)) (x : KeyValuePair K V)
    (h : invar t) (hres : (delete t x).2 = none) :
    (delete t x).1 = t := by
  induction t with
  | nil => rfl
  | node v l r lvl ihl ihr =>
    obtain ⟨hl, hr, hlev, hrc⟩ := h
    have hinv : invar (Tree.node v l r lvl) := ⟨hl, hr, hlev, hrc⟩
    by_cases hxv : x.key < v.key
    · rw [delete_lt hxv] at hres ⊢
      simp only at hres ⊢
      rw [ihl hl hres, rebalance_eq_of_invar hinv]
    · by_cases hvx : v.key < x.key
      · rw [delete_gt hxv hvx] at hres ⊢
        simp only at hres ⊢
        rw [ihr hr hres, rebalance_eq_of_invar hinv]
      · exfalso
        match l, r with
        | Tree.nil, Tree.nil => rw [delete_eq_leaf hxv hvx] at hres; simp at hres
        | Tree.nil, Tree.node rv rl rr rlev =>
          rw [delete_eq_succ hxv hvx] at hres; simp at hres
        | Tree.node lv ll lr llev, r =>
          rw [delete_eq_pred hxv hvx] at hres; simp at hres

end AAMap

/-! ### In-order traversal of the mutating operations -/

namespace AAMap

variable {α : Type} {K V : Type} [LinearOrder K]

theorem inorder_node {v : α} {l r : Tree α} {lvl : Nat} :
    inorder (Tree.node v l r lvl) = inorder l ++ v :: inorder r := rfl

theorem successor_inorder (l : Tree α) : ∀ (v : α) (r : Tree α) (lvl : Nat),
    inorder (Tree.node v l r lvl) =
      (successor v l r lvl).2.1 :: inorder (successor v l r lvl).1 := by
  induction l with
  | nil => intro v r lvl; rw [successor_nil]; simp [inorder]
  | node lv ll lr llev ihl ihr =>
    intro v r lvl
    rw [successor_node]
    dsimp only
    calc inorder (Tree.node v (Tree.node lv ll lr llev) r lvl)
        = inorder (Tree.node lv ll lr llev) ++ v :: inorder r := inorder_node
      _ = ((successor lv ll lr llev).2.1 :: inorder (successor lv ll lr llev).1)
            ++ v :: inorder r := by rw [ihl lv lr llev]
      _ = (successor lv ll lr llev).2.1 ::
            (inorder (successor lv ll lr llev).1 ++ v :: inorder r) := rfl
      _ = (successor lv ll lr llev).2.1 ::
            inorder (rebalance (Tree.node v (successor lv ll lr llev).1 r lvl)) := by
          rw [inorder_rebalance, inorder_node]

theorem predecessor_inorder (r : Tree α) : ∀ (v : α) (l : Tree α) (lvl : Nat),
    inorder (Tree.node v l r lvl) =
      inorder (predecessor v l r lvl).1 ++ [(predecessor v l r lvl).2.1] := by
  induction r with
  | nil => intro v l lvl; rw [predecessor_nil]; simp [inorder]
  | node rv rl rr rlev ihl ihr =>
    intro v l lvl
    rw [predecessor_node]
    dsimp only
    calc inorder (Tree.node v l (Tree.node rv rl rr rlev) lvl)
        = inorder l ++ v :: inorder (Tree.node rv rl rr rlev) := inorder_node
      _ = inorder l ++ v :: (inorder (predecessor rv rl rr rlev).1
            ++ [(predecessor rv rl rr rlev).2.1]) := by rw [ihr rv rl rlev]
      _ = (inorder l ++ v :: inorder (predecessor rv rl rr rlev).1)
            ++ [(predecessor rv rl rr rlev).2.1] := by simp
      _ = inorder (rebalance (Tree.node v l (predecessor rv rl rr rlev).1 lvl))
            ++ [(predecessor rv rl rr rlev).2.1] := by
          rw [inorder_rebalance, inorder_node]

end AAMap

/-! ### The sorted association-list model -/

namespace AAMap

variable {K V : Type} [LinearOrder K]

/-- Sorted insertion into an association list, mirroring the search path of
`insert`: inserted before the first strictly larger key, dropped when an
equal key is met. -/
def listInsert (x : KeyValuePair K V) : List (KeyValuePair K V) → List (KeyValuePair K V)
  | [] => [x]
  | p :: ps =>
    if x.key < p.key then x :: p :: ps
    else if p.key < x.key then p :: listInsert x ps
    else p :: ps

/-- Key-based lookup in the association-list model. -/
def lookupKey (k : K) (l : List (KeyValuePair K V)) : Option (KeyValuePair K V) :=
  l.find? fun p => decide (p.key = k)

/-- Strictly increasing keys along the in-order traversal. -/
def SortedT (t : Tree (KeyValuePair K V)) : Prop :=
  List.Pairwise (fun p q : KeyValuePair K V => p.key < q.key) (inorder t)

theorem find?_append_of_none {p : KeyValuePair K V → Bool}
    {l₁ l₂ : List (KeyValuePair K V)} (h : l₁.find? p = none) :
    (l₁ ++ l₂).find? p = l₂.find? p := by
  induction l₁ with
  | nil => rfl
  | cons a l ih =>
    have hpa : ¬ p a = true := by
      intro hpa
      rw [List.find?_cons_of_pos _ hpa] at h
      exact Option.noConfusion h
    rw [List.find?_cons_of_neg _ hpa] at h
    rw [List.cons_append, List.find?_cons_of_neg _ hpa]
    exact ih h

theorem find?_append_of_some {p : KeyValuePair K V → Bool}
    {l₁ l₂ : List (KeyValuePair K V)} {a : KeyValuePair K V}
    (h : l₁.find? p = some a) :
    (l₁ ++ l₂).find? p = some a := by
  induction l₁ with
  | nil => exact Option.noConfusion h
  | cons b l ih =>
    by_cases hpb : p b = true
    · rw [List.find?_cons_of_pos _ hpb] at h
      rw [List.cons_append, List.find?_cons_of_pos _ hpb]
      exact h
    · rw [List.find?_cons_of_neg _ hpb] at h
      rw [List.cons_append, List.find?_cons_of_neg _ hpb]
      exact ih h

theorem mem_listInsert {x q : KeyValuePair K V} {l : List (KeyValuePair K V)}
    (h : q ∈ listInsert x l) : q = x ∨ q ∈ l := by
  induction l with
  | nil => simp [listInsert] at h; exact Or.inl h
  | cons p ps ih =>
    simp only [listInsert] at h
    by_cases h1 : x.key < p.key
    · rw [if_pos h1] at h
      rcases List.mem_cons.mp h with h | h
      · exact Or.inl h
      · exact Or.inr h
    · rw [if_neg h1] at h
      by_cases h2 : p.key < x.key
      · rw [if_pos h2] at h
        rcases List.mem_cons.mp h with h | h
        · exact Or.inr (by simp [h])
        · rcases ih h with h | h
          · exact Or.inl h
          · exact Or.inr (by simp [h])
      · rw [if_neg h2] at h
        exact Or.inr h

theorem listInsert_pairwise {x : KeyValuePair K V} {l : List (KeyValuePair K V)}
    (hs : List.Pairwise (fun p q : KeyValuePair K V => p.key < q.key) l) :
    List.Pairwise (fun p q : KeyValuePair K V => p.key < q.key) (listInsert x l) := by
  induction l with
  | nil => simp [listInsert]
  | cons p ps ih =>
    rw [List.pairwise_cons] at hs
    simp only [listInsert]
    by_cases h1 : x.key < p.key
    · rw [if_pos h1]
      rw [List.pairwise_cons]
      refine ⟨?_, List.pairwise_cons.mpr hs⟩
      intro b hb
      rcases List.mem_cons.mp hb with hb | hb
      · subst hb; exact h1
      · exact lt_trans h1 (hs.1 b hb)
    · rw [if_neg h1]
      by_cases h2 : p.key < x.key
      · rw [if_pos h2]
        rw [List.pairwise_cons]
        refine ⟨?_, ih hs.2⟩
        intro b hb
        rcases mem_listInsert hb with hb | hb
        · subst hb; exact h2
        · exact hs.1 b hb
      · rw [if_neg h2]
        exact List.pairwise_cons.mpr hs

theorem listInsert_length_absent {x : KeyValuePair K V} {l : List (KeyValuePair K V)}
    (h : lookupKey x.key l = none) :
    (listInsert x l).length = l.length + 1 := by
  induction l with
  | nil => rfl
  | cons p ps ih =>
    have hp : ¬ p.key = x.key := by
      intro hpk
      rw [lookupKey, List.find?_cons_of_pos _ (by simp [hpk])] at h
      exact Option.noConfusion h
    have hrest : lookupKey x.key ps = none := by
      rw [lookupKey, List.find?_cons_of_neg _ (by simp [hp])] at h
      exact h
    simp only [listInsert]
    by_cases h1 : x.key < p.key
    · rw [if_pos h1]; simp
    · rw [if_neg h1]
      by_cases h2 : p.key < x.key
      · rw [if_pos h2]; simp [ih hrest]
      · exact absurd (le_antisymm (not_lt.mp h1) (not_lt.mp h2)) hp

theorem filter_length_found {k : K} {l : List (KeyValuePair K V)}
    {a : KeyValuePair K V}
    (hs : List.Pairwise (fun p q : KeyValuePair K V => p.key < q.key) l)
    (h : lookupKey k l = some a) :
    (l.filter fun p => decide (p.key ≠ k)).length + 1 = l.length := by
  induction l with
  | nil => exact Option.noConfusion h
  | cons p ps ih =>
    rw [List.pairwise_cons] at hs
    by_cases hpk : p.key = k
    · have hrest : (ps.filter fun p => decide (p.key ≠ k)) = ps := by
        rw [List.filter_eq_self]
        intro b hb
        have hlt := hs.1 b hb
        simp only [decide_eq_true_eq]
        intro hbk
        rw [hpk] at hlt
        exact absurd (hbk ▸ hlt) (lt_irrefl k)
      rw [List.filter_cons_of_neg (by simp [hpk])]
      rw [hrest]
      simp
    · rw [List.filter_cons_of_pos (by simp [hpk])]
      rw [lookupKey, List.find?_cons_of_neg _ (by simp [hpk])] at h
      simp only [List.length_cons]
      rw [ih hs.2 h]

end AAMap

namespace AAMap

variable {K V : Type} [LinearOrder K]

theorem sortedT_node {v : KeyValuePair K V} {l r : Tree (KeyValuePair K V)} {lvl : Nat}
    (h : SortedT (Tree.node v l r lvl)) :
    SortedT l ∧ SortedT r ∧
    (∀ p ∈ inorder l, p.key < v.key) ∧ (∀ q ∈ inorder r, v.key < q.key) := by
  unfold SortedT at h
  rw [inorder_node, List.pairwise_append] at h
  obtain ⟨h1, h2, h3⟩ := h
  rw [List.pairwise_cons] at h2
  exact ⟨h1, h2.2, fun p hp => h3 p hp v (by simp), h2.1⟩

theorem findNode_sem (t : Tree (KeyValuePair K V)) (k : K) (hs : SortedT t) :
    findNode k t = lookupKey k (inorder t) := by
  induction t with
  | nil => rfl
  | node v l r lvl ihl ihr =>
    obtain ⟨hsl, hsr, hkl, hkr⟩ := sortedT_node hs
    rw [inorder_node, lookupKey]
    by_cases h1 : k < v.key
    · have hnone : (v :: inorder r).find? (fun p => decide (p.key = k)) = none := by
        rw [List.find?_eq_none]
        intro w hw
        simp only [decide_eq_true_eq]
        intro hwk
        rcases List.mem_cons.mp hw with hw | hw
        · subst hw; rw [hwk] at h1; exact lt_irrefl k h1
        · have hlt := hkr w hw
          rw [hwk] at hlt
          exact lt_irrefl k (lt_trans h1 hlt)
      rcases hfl : (inorder l).find? (fun p => decide (p.key = k)) with _ | a
      · rw [find?_append_of_none hfl, hnone]
        simp only [findNode, if_pos h1]
        rw [ihl hsl, lookupKey, hfl]
      · rw [find?_append_of_some hfl]
        simp only [findNode, if_pos h1]
        rw [ihl hsl, lookupKey, hfl]
    · by_cases h2 : v.key < k
      · have hlnone : (inorder l).find? (fun p => decide (p.key = k)) = none := by
          rw [List.find?_eq_none]
          intro w hw
          simp only [decide_eq_true_eq]
          intro hwk
          have hlt := hkl w hw
          rw [hwk] at hlt
          exact lt_irrefl k (lt_trans hlt h2)
        rw [find?_append_of_none hlnone,
          List.find?_cons_of_neg _ (by
            simp only [decide_eq_true_eq]
            intro hvk
            rw [hvk] at h2
            exact lt_irrefl k h2)]
        simp only [findNode, if_neg h1, if_pos h2]
        rw [ihr hsr, lookupKey]
      · have hk : v.key = k := le_antisymm (not_lt.mp h1) (not_lt.mp h2)
        have hlnone : (inorder l).find? (fun p => decide (p.key = k)) = none := by
          rw [List.find?_eq_none]
          intro w hw
          simp only [decide_eq_true_eq]
          intro hwk
          have hlt := hkl w hw
          rw [hk, hwk] at hlt
          exact lt_irrefl k hlt
        rw [find?_append_of_none hlnone,
          List.find?_cons_of_pos _ (by simp [hk])]
        simp only [findNode, if_neg h1, if_neg h2, if_pos hk.symm]

end AAMap

namespace AAMap

variable {K V : Type} [LinearOrder K]

theorem listInsert_append_lt {x v : KeyValuePair K V}
    {l₁ l₂ : List (KeyValuePair K V)} (h : x.key < v.key) :
    listInsert x (l₁ ++ v :: l₂) = listInsert x l₁ ++ v :: l₂ := by
  induction l₁ with
  | nil => simp [listInsert, if_pos h]
  | cons q l ih =>
    simp only [List.cons_append, listInsert, List.append_eq]
    by_cases h1 : x.key < q.key
    · rw [if_pos h1, if_pos h1]; rfl
    · rw [if_neg h1, if_neg h1]
      by_cases h2 : q.key < x.key
      · rw [if_pos h2, if_pos h2, ih]; rfl
      · rw [if_neg h2, if_neg h2]; rfl

theorem listInsert_append_gt {x v : KeyValuePair K V}
    {l₁ l₂ : List (KeyValuePair K V)} (hv : v.key < x.key)
    (hall : ∀ q ∈ l₁, q.key < x.key) :
    listInsert x (l₁ ++ v :: l₂) = l₁ ++ v :: listInsert x l₂ := by
  induction l₁ with
  | nil =>
    simp only [List.nil_append, listInsert, List.append_eq]
    rw [if_neg (not_lt.mpr (le_of_lt hv)), if_pos hv]
  | cons q l ih =>
    have hq : q.key < x.key := hall q (by simp)
    simp only [List.cons_append, listInsert, List.append_eq]
    rw [if_neg (not_lt.mpr (le_of_lt hq)), if_pos hq,
      ih (fun w hw => hall w (by simp [hw]))]

theorem listInsert_append_eq {x v : KeyValuePair K V}
    {l₁ l₂ : List (KeyValuePair K V)}
    (h1 : ¬ x.key < v.key) (h2 : ¬ v.key < x.key)
    (hall : ∀ q ∈ l₁, q.key < x.key) :
    listInsert x (l₁ ++ v :: l₂) = l₁ ++ v :: l₂ := by
  induction l₁ with
  | nil => simp only [List.nil_append, listInsert, List.append_eq]; rw [if_neg h1, if_neg h2]
  | cons q l ih =>
    have hq : q.key < x.key := hall q (by simp)
    simp only [List.cons_append, listInsert, List.append_eq]
    rw [if_neg (not_lt.mpr (le_of_lt hq)), if_pos hq,
      ih (fun w hw => hall w (by simp [hw]))]

theorem lookup_cons_all_gt {k : K} {v : KeyValuePair K V}
    {l : List (KeyValuePair K V)} (hv : k < v.key)
    (hall : ∀ q ∈ l, v.key < q.key) :
    lookupKey k (v :: l) = none := by
  rw [lookupKey, List.find?_eq_none]
  intro w hw
  simp only [decide_eq_true_eq]
  intro hwk
  rcases List.mem_cons.mp hw with hw | hw
  · subst hw; rw [hwk] at hv; exact lt_irrefl k hv
  · have := hall w hw; rw [hwk] at this; exact lt_irrefl k (lt_trans hv this)

theorem lookup_all_lt {k : K} {l : List (KeyValuePair K V)}
    (hall : ∀ q ∈ l, q.key < k) :
    lookupKey k l = none := by
  rw [lookupKey, List.find?_eq_none]
  intro w hw
  simp only [decide_eq_true_eq]
  intro hwk
  have := hall w hw
  rw [hwk] at this
  exact lt_irrefl k this

theorem insert_sem (t : Tree (KeyValuePair K V)) (x : KeyValuePair K V)
    (hs : SortedT t) :
    inorder (insert t x Tree.nil Tree.nil 1).2 = listInsert x (inorder t) ∧
    (insert t x Tree.nil Tree.nil 1).1 = (lookupKey x.key (inorder t)).isNone := by
  induction t with
  | nil => exact ⟨rfl, rfl⟩
  | node v l r lvl ihl ihr =>
    obtain ⟨hsl, hsr, hkl, hkr⟩ := sortedT_node hs
    by_cases hxv : x.key < v.key
    · have ih := ihl hsl
      constructor
      · rw [insert_lt_snd hxv, inorder_split, inorder_skew, inorder_node, ih.1,
          inorder_node, listInsert_append_lt hxv]
      · rw [insert_lt_fst hxv, ih.2, inorder_node]
        rcases hfl : lookupKey x.key (inorder l) with _ | a
        · have hvr : lookupKey x.key (v :: inorder r) = none :=
            lookup_cons_all_gt hxv hkr
          simp only [lookupKey] at hfl hvr ⊢
          rw [find?_append_of_none hfl, hvr]
        · simp only [lookupKey] at hfl ⊢
          rw [find?_append_of_some hfl]
    · by_cases hvx : v.key < x.key
      · have ih := ihr hsr
        constructor
        · rw [insert_gt_snd hxv hvx, inorder_split, inorder_skew, inorder_node, ih.1,
            inorder_node, listInsert_append_gt hvx
              (fun q hq => lt_trans (hkl q hq) hvx)]
        · rw [insert_gt_fst hxv hvx, ih.2, inorder_node]
          have hlnone : lookupKey x.key (inorder l) = none :=
            lookup_all_lt (fun q hq => lt_trans (hkl q hq) hvx)
          simp only [lookupKey] at hlnone ⊢
          rw [find?_append_of_none hlnone,
            List.find?_cons_of_neg _ (by
              simp only [decide_eq_true_eq]
              intro hvk
              rw [hvk] at hvx
              exact lt_irrefl x.key hvx)]
      · have hk : v.key = x.key := le_antisymm (not_lt.mp hxv) (not_lt.mp hvx)
        constructor
        · rw [insert_dup_snd hxv hvx, inorder_split, inorder_skew, inorder_node,
            listInsert_append_eq hxv hvx (fun q hq => hk ▸ hkl q hq)]
        · rw [insert_dup_fst hxv hvx, inorder_node]
          have hlnone : lookupKey x.key (inorder l) = none :=
            lookup_all_lt (fun q hq => hk ▸ hkl q hq)
          simp only [lookupKey] at hlnone ⊢
          rw [find?_append_of_none hlnone,
            List.find?_cons_of_pos _ (by simp [hk])]
          rfl

end AAMap

namespace AAMap

variable {K V : Type} [LinearOrder K]

theorem filter_all_keep {k : K} {l : List (KeyValuePair K V)}
    (h : ∀ q ∈ l, ¬ q.key = k) :
    (l.filter fun p => decide (p.key ≠ k)) = l := by
  rw [List.filter_eq_self]
  intro a ha
  simp only [decide_eq_true_eq]
  exact h a ha

theorem delete_sem (t : Tree (KeyValuePair K V)) (x : KeyValuePair K V)
    (hs : SortedT t) :
    inorder (delete t x).1 = (inorder t).filter (fun p => decide (p.key ≠ x.key)) ∧
    (delete t x).2.map Prod.fst = lookupKey x.key (inorder t) := by
  induction t with
  | nil => exact ⟨rfl, rfl⟩
  | node v l r lvl ihl ihr =>
    obtain ⟨hsl, hsr, hkl, hkr⟩ := sortedT_node hs
    by_cases hxv : x.key < v.key
    · have ih := ihl hsl
      have hvne : ¬ v.key = x.key := by
        intro hvk; rw [hvk] at hxv; exact lt_irrefl x.key hxv
      have hrkeep : ((inorder r).filter fun p => decide (p.key ≠ x.key)) = inorder r :=
        filter_all_keep (fun q hq hqk => by
          have := hkr q hq
          rw [hqk] at this
          exact lt_irrefl x.key (lt_trans hxv this))
      constructor
      · rw [delete_lt hxv]
        dsimp only
        rw [inorder_rebalance, inorder_node, ih.1, inorder_node,
          List.filter_append, List.filter_cons_of_pos (by simp [hvne]), hrkeep]
      · rw [delete_lt hxv]
        dsimp only
        rw [ih.2, inorder_node]
        rcases hfl : lookupKey x.key (inorder l) with _ | a
        · have hvr : lookupKey x.key (v :: inorder r) = none :=
            lookup_cons_all_gt hxv hkr
          simp only [lookupKey] at hfl hvr ⊢
          rw [find?_append_of_none hfl, hvr]
        · simp only [lookupKey] at hfl ⊢
          rw [find?_append_of_some hfl]
    · by_cases hvx : v.key < x.key
      · have ih := ihr hsr
        have hvne : ¬ v.key = x.key := by
          intro hvk; rw [hvk] at hvx; exact lt_irrefl x.key hvx
        have hlkeep : ((inorder l).filter fun p => decide (p.key ≠ x.key)) = inorder l :=
          filter_all_keep (fun q hq hqk => by
            have := lt_trans (hkl q hq) hvx
            rw [hqk] at this
            exact lt_irrefl x.key this)
        have hlnone : lookupKey x.key (inorder l) = none :=
          lookup_all_lt (fun q hq => lt_trans (hkl q hq) hvx)
        constructor
        · rw [delete_gt hxv hvx]
          dsimp only
          rw [inorder_rebalance, inorder_node, ih.1, inorder_node,
            List.filter_append, List.filter_cons_of_pos (by simp [hvne]), hlkeep]
        · rw [delete_gt hxv hvx]
          dsimp only
          rw [ih.2, inorder_node]
          simp only [lookupKey] at hlnone ⊢
          rw [find?_append_of_none hlnone,
            List.find?_cons_of_neg _ (by simp [hvne])]
      · have hk : v.key = x.key := le_antisymm (not_lt.mp hxv) (not_lt.mp hvx)
        have hrkeep : ((inorder r).filter fun p => decide (p.key ≠ x.key)) = inorder r :=
          filter_all_keep (fun q hq hqk => by
            have := hkr q hq
            rw [hk, hqk] at this
            exact lt_irrefl x.key this)
        have hlkeep : ((inorder l).filter fun p => decide (p.key ≠ x.key)) = inorder l :=
          filter_all_keep (fun q hq hqk => by
            have := hkl q hq
            rw [hk] at this
            rw [hqk] at this
            exact lt_irrefl x.key this)
        have hlnone : lookupKey x.key (inorder l) = none :=
          lookup_all_lt (fun q hq => hk ▸ hkl q hq)
        cases l with
        | nil =>
          cases r with
          | nil =>
            constructor
            · rw [delete_eq_leaf hxv hvx]
              dsimp only
              rw [inorder_node]
              simp only [inorder]
              rw [List.nil_append, List.filter_cons_of_neg (by simp [hk])]
              rfl
            · rw [delete_eq_leaf hxv hvx]
              dsimp only
              rw [inorder_node]
              simp only [inorder]
              rw [List.nil_append, lookupKey, List.find?_cons_of_pos _ (by simp [hk])]
              rfl
          | node rv rl rr rlev =>
            rw [inorder_node] at hrkeep
            constructor
            · rw [delete_eq_succ hxv hvx]
              dsimp only
              rw [inorder_rebalance, inorder_node]
              simp only [inorder, List.nil_append]
              rw [← successor_inorder rl rv rr rlev]
              rw [inorder_node, List.filter_cons_of_neg (by simp [hk])]
              exact hrkeep.symm
            · rw [delete_eq_succ hxv hvx]
              dsimp only
              rw [inorder_node]
              simp only [inorder, List.nil_append]
              rw [lookupKey, List.find?_cons_of_pos _ (by simp [hk])]
              rfl
        | node lv ll lr llev =>
          constructor
          · rw [delete_eq_pred hxv hvx]
            dsimp only
            rw [inorder_rebalance, inorder_node, inorder_node,
              List.filter_append, List.filter_cons_of_neg (by simp [hk]),
              hlkeep, hrkeep,
              predecessor_inorder lr lv ll llev]
            simp
          · rw [delete_eq_pred hxv hvx]
            dsimp only
            rw [inorder_node]
            simp only [lookupKey] at hlnone ⊢
            rw [find?_append_of_none hlnone,
              List.find?_cons_of_pos _ (by simp [hk])]
            rfl

end AAMap

namespace AAMap

variable {K V : Type} [LinearOrder K]

/-- `KeyValueMap::insert` unfolded: the tree-level insert of a fresh level-1
leaf carrying `Some value`, with `count` bumped when the insert reported
success. -/
theorem KeyValueMap.insert_def (m : KeyValueMap K V) (k : K) (v : V) :
    m.insert k v = ((AAMap.insert m.root ⟨k, some v⟩ .nil .nil 1).1,
      ⟨m.count + (if (AAMap.insert m.root ⟨k, some v⟩ .nil .nil 1).1 then 1 else 0),
       (AAMap.insert m.root ⟨k, some v⟩ .nil .nil 1).2⟩) := rfl

/-- `KeyValueMap::delete` when the tree-level delete extracted nothing. -/
theorem KeyValueMap.delete_def_none (m : KeyValueMap K V) (k : K)
    (h : (AAMap.delete m.root ⟨k, none⟩).2 = none) :
    m.delete k = (none, ⟨m.count, (AAMap.delete m.root ⟨k, none⟩).1⟩) := by
  simp only [KeyValueMap.delete]
  rw [h]

/-- `KeyValueMap::delete` when the tree-level delete extracted a node. -/
theorem KeyValueMap.delete_def_some (m : KeyValueMap K V) (k : K)
    (d : KeyValuePair K V × Nat)
    (h : (AAMap.delete m.root ⟨k, none⟩).2 = some d) :
    m.delete k = (some d.1, ⟨m.count - 1, (AAMap.delete m.root ⟨k, none⟩).1⟩) := by
  simp only [KeyValueMap.delete]
  rw [h]

/-- The well-formedness invariant maintained by the facade: the root
satisfies the strong AA structural invariant, keys are strictly increasing
along the in-order traversal, `count` equals the number of nodes, and every
stored pair's `value` field is `Some`. -/
def Good (m : KeyValueMap K V) : Prop :=
  invar m.root ∧ SortedT m.root ∧ m.count = size m.root ∧
    ∀ p ∈ inorder m.root, p.value.isSome = true

theorem good_new : Good (KeyValueMap.new : KeyValueMap K V) :=
  ⟨trivial, List.Pairwise.nil, rfl, fun p hp => absurd hp (by simp [KeyValueMap.new, inorder])⟩

theorem good_insert (m : KeyValueMap K V) (k : K) (v : V) (h : Good m) :
    Good (m.insert k v).2 := by
  obtain ⟨hi, hs, hc, hv⟩ := h
  have post := insert_post m.root ⟨k, some v⟩ hi
  have sem := insert_sem m.root ⟨k, some v⟩ hs
  rw [KeyValueMap.insert_def]
  refine ⟨post.1, ?_, ?_, ?_⟩
  · show SortedT (AAMap.insert m.root ⟨k, some v⟩ .nil .nil 1).2
    unfold SortedT
    rw [sem.1]
    exact listInsert_pairwise hs
  · show m.count + (if (AAMap.insert m.root ⟨k, some v⟩ .nil .nil 1).1 then 1 else 0)
      = size (AAMap.insert m.root ⟨k, some v⟩ .nil .nil 1).2
    cases hres : (AAMap.insert m.root ⟨k, some v⟩ .nil .nil 1).1 with
    | false =>
      rw [insert_dup_id m.root _ hi hres, ← hc]
      simp
    | true =>
      have h2 := sem.2
      rw [hres] at h2
      have hnone : lookupKey (⟨k, some v⟩ : KeyValuePair K V).key (inorder m.root) = none :=
        Option.isNone_iff_eq_none.mp h2.symm
      rw [size_eq_length_inorder, sem.1, listInsert_length_absent hnone,
        ← size_eq_length_inorder, ← hc]
      simp
  · intro q hq
    show q.value.isSome = true
    rw [sem.1] at hq
    rcases mem_listInsert hq with rfl | hq'
    · rfl
    · exact hv q hq'

theorem good_delete (m : KeyValueMap K V) (k : K) (h : Good m) :
    Good (m.delete k).2 := by
  obtain ⟨hi, hs, hc, hv⟩ := h
  have post := delete_post m.root ⟨k, none⟩ hi
  have sem := delete_sem m.root ⟨k, none⟩ hs
  have hsort : SortedT (AAMap.delete m.root ⟨k, none⟩).1 := by
    unfold SortedT
    rw [sem.1]
    exact hs.sublist (List.filter_sublist _)
  have hval : ∀ q ∈ inorder (AAMap.delete m.root ⟨k, none⟩).1,
      q.value.isSome = true := by
    intro q hq
    rw [sem.1] at hq
    exact hv q (List.mem_of_mem_filter hq)
  rcases hd : (AAMap.delete m.root ⟨k, none⟩).2 with _ | d
  · rw [KeyValueMap.delete_def_none m k hd]
    refine ⟨post.1, hsort, ?_, hval⟩
    show m.count = size (AAMap.delete m.root ⟨k, none⟩).1
    rw [delete_absent_id m.root _ hi hd]
    exact hc
  · rw [KeyValueMap.delete_def_some m k d hd]
    have h2 := sem.2
    rw [hd] at h2
    simp only [Option.map_some'] at h2
    have hcount := filter_length_found hs h2.symm
    refine ⟨post.1, hsort, ?_, hval⟩
    show m.count - 1 = size (AAMap.delete m.root ⟨k, none⟩).1
    rw [size_eq_length_inorder, sem.1, hc, size_eq_length_inorder]
    dsimp only at hcount ⊢
    omega

theorem good_applyOp (m : KeyValueMap K V) (op : Op K V) (h : Good m) :
    Good (applyOp m op) := by
  cases op with
  | ins k v => exact good_insert m k v h
  | del k => exact good_delete m k h

theorem good_applyOps (ops : List (Op K V)) :
    ∀ m : KeyValueMap K V, Good m → Good (applyOps m ops) := by
  induction ops with
  | nil => intro m h; exact h
  | cons op ops ih => intro m h; exact ih (applyOp m op) (good_applyOp m op h)

theorem reachable_good {m : KeyValueMap K V} (h : Reachable m) : Good m := by
  obtain ⟨ops, hops⟩ := h
  rw [← hops]
  exact good_applyOps ops KeyValueMap.new good_new

end AAMap

namespace AAMap

variable {α : Type} {K V : Type} [LinearOrder K]

theorem tree_ne_nil_of_levelOf_pos {t : Tree α} (h : 0 < levelOf t) :
    t ≠ Tree.nil := by
  intro he
  rw [he, levelOf_nil] at h
  exact Nat.lt_irrefl 0 h

/-- The strong structural invariant implies the four spec-level invariants. -/
theorem invar_specInv (t : Tree α) (h : invar t) : specInv t := by
  induction t with
  | nil => trivial
  | node v l r lvl ihl ihr =>
    obtain ⟨hl, hr, hlev, hrc⟩ := h
    have hrt := rightT_le_of_invar hr
    refine ⟨?_, by omega, ?_, ?_, ?_, ihl hl, ihr hr⟩
    · intro hln _
      rw [hln, levelOf_nil] at hlev
      omega
    · rcases hrc with h1 | ⟨h1, _⟩ <;> omega
    · rcases hrc with h1 | ⟨h1, h2⟩ <;> omega
    · intro h1
      refine ⟨tree_ne_nil_of_levelOf_pos (by omega), tree_ne_nil_of_levelOf_pos ?_⟩
      rcases hrc with h2 | ⟨h2, _⟩ <;> omega

/-- `KeyValueMap::find` is key lookup in the in-order association list. -/
theorem find_eq_lookup (m : KeyValueMap K V) (k : K) (hs : SortedT m.root) :
    m.find k = (lookupKey k (inorder m.root)).map fun p => (p.key, p.value) := by
  unfold KeyValueMap.find
  rw [findNode_sem m.root k hs]

/-- Inserting a key that is absent makes it found, with exactly the
inserted pair. -/
theorem lookupKey_listInsert_self {x : KeyValuePair K V}
    {l : List (KeyValuePair K V)} (h : lookupKey x.key l = none) :
    lookupKey x.key (listInsert x l) = some x := by
  induction l with
  | nil =>
    show List.find? (fun p => decide (p.key = x.key)) [x] = some x
    rw [List.find?_cons_of_pos _ (by simp)]
  | cons p ps ih =>
    have hp : ¬ p.key = x.key := by
      intro he
      unfold lookupKey at h
      rw [List.find?_cons_of_pos _ (by simp [he])] at h
      exact Option.noConfusion h
    have hps : lookupKey x.key ps = none := by
      unfold lookupKey at h ⊢
      rw [List.find?_cons_of_neg _ (by simp [hp])] at h
      exact h
    by_cases h1 : x.key < p.key
    · simp only [listInsert]
      rw [if_pos h1]
      unfold lookupKey
      rw [List.find?_cons_of_pos _ (by simp)]
    · have h2 : p.key < x.key :=
        lt_of_le_of_ne (not_lt.mp h1) (fun he => hp he)
      simp only [listInsert]
      rw [if_neg h1, if_pos h2]
      unfold lookupKey at ih ⊢
      rw [List.find?_cons_of_neg _ (by simp [hp])]
      exact ih hps

/-- After filtering a key out, looking it up fails. -/
theorem lookupKey_filter_ne {k : K} (l : List (KeyValuePair K V)) :
    lookupKey k (l.filter fun p => decide (p.key ≠ k)) = none := by
  unfold lookupKey
  rw [List.find?_eq_none]
  intro p hp
  have h1 := List.of_mem_filter hp
  simp only [decide_eq_true_eq] at h1 ⊢
  exact h1

/-- A pair returned by the `find` cursor loop is stored in the tree. -/
theorem findNode_mem {k : K} {t : Tree (KeyValuePair K V)}
    {p : KeyValuePair K V} (h : findNode k t = some p) : p ∈ inorder t := by
  induction t with
  | nil => exact Option.noConfusion h
  | node v l r lvl ihl ihr =>
    simp only [findNode] at h
    rw [inorder_node]
    by_cases h1 : k < v.key
    · rw [if_pos h1] at h
      exact List.mem_append_left _ (ihl h)
    · rw [if_neg h1] at h
      by_cases h2 : v.key < k
      · rw [if_pos h2] at h
        exact List.mem_append_right _ (List.mem_cons_of_mem _ (ihr h))
      · rw [if_neg h2] at h
        by_cases h3 : k = v.key
        · rw [if_pos h3] at h
          rw [← Option.some.inj h]
          exact List.mem_append_right _ (List.mem_cons_self _ _)
        · rw [if_neg h3] at h
          exact Option.noConfusion h

/-- The root of the map returned by `KeyValueMap::delete` is the tree
returned by the tree-level delete, in both branches. -/
theorem KeyValueMap.delete_root (m : KeyValueMap K V) (k : K) :
    (m.delete k).2.root = (AAMap.delete m.root ⟨k, none⟩).1 := by
  rcases hd : (AAMap.delete m.root ⟨k, none⟩).2 with _ | d
  · rw [KeyValueMap.delete_def_none m k hd]
  · rw [KeyValueMap.delete_def_some m k d hd]

theorem inorderL_node {v : α} {l r : Tree α} {lvl : Nat} :
    inorderL (Tree.node v l r lvl) = inorderL l ++ (v, lvl) :: inorderL r := rfl

/-- `skew` moves no node to a different in-order position and changes no
node's level. -/
theorem inorderL_skew (t : Tree α) : inorderL (skew t) = inorderL t := by
  match t with
  | .nil => rfl
  | .node v .nil r lvl => rfl
  | .node v (.node lv ll lr llev) r lvl =>
    by_cases h : llev = lvl
    · subst h
      rw [skew_fire, inorderL_node, inorderL_node, inorderL_node, inorderL_node,
        List.append_assoc, List.cons_append]
    · rw [skew_not_fire (by rw [levelOf_node]; exact h)]

theorem forall2_levels_refl (l : List (α × Nat)) :
    List.Forall₂ (fun a b : α × Nat => b.1 = a.1 ∧ b.2 ≤ a.2) l l :=
  List.forall₂_same.mpr (fun a _ => ⟨rfl, le_refl _⟩)

/-- `decrease_level` keeps every node's value at its in-order position and
never increases any node's level. -/
theorem decrease_level_levels (t : Tree α) :
    List.Forall₂ (fun a b : α × Nat => b.1 = a.1 ∧ b.2 ≤ a.2)
      (inorderL t) (inorderL (decrease_level t)) := by
  match t with
  | .nil => exact List.Forall₂.nil
  | .node v l r lvl =>
    by_cases h1 : min (levelOf l) (levelOf r) + 1 < lvl
    · match r with
      | .nil =>
        rw [dec_fire_nil h1, inorderL_node, inorderL_node]
        refine List.rel_append (forall2_levels_refl _)
          (List.Forall₂.cons ⟨rfl, ?_⟩ (forall2_levels_refl _))
        simp only [levelOf_nil] at h1 ⊢
        omega
      | .node rv rl rr rlev =>
        rw [levelOf_node] at h1
        by_cases h2 : min (levelOf l) rlev + 1 < rlev
        · rw [dec_fire_relevel h1 h2, inorderL_node, inorderL_node,
            inorderL_node, inorderL_node]
          exact List.rel_append (forall2_levels_refl _)
            (List.Forall₂.cons ⟨rfl, by omega⟩ (List.rel_append (forall2_levels_refl _)
              (List.Forall₂.cons ⟨rfl, by omega⟩ (forall2_levels_refl _))))
        · rw [dec_fire_keep h1 h2, inorderL_node, inorderL_node]
          exact List.rel_append (forall2_levels_refl _)
            (List.Forall₂.cons ⟨rfl, by omega⟩ (forall2_levels_refl _))
    · rw [dec_not_fire h1]
      exact forall2_levels_refl _

end AAMap

namespace AAMap

/-- C1: after any sequence of facade insert/delete operations starting from
the empty map, every node of the resulting tree satisfies the four AA-tree
invariants: a leaf has level 1 (an absent subtree has level 0), a left
child's level is strictly less than its parent's, a right child's level is
at most its parent's with the right-right grandchild's level strictly less
than the grandparent's, and every node with level greater than 1 has both
children present. -/
theorem C1_invariant_preservation (K V : Type) [LinearOrder K]
    (ops : List (Op K V)) :
    specInv (applyOps KeyValueMap.new ops).root :=
  invar_specInv _ (reachable_good ⟨ops, rfl⟩).1

/-- C2: on any reachable map in which the key is absent, insert(k, v) then
find(k) returns v, a subsequent delete(k) hands back the inserted pair, and
a find(k) after that delete reports absence. -/
theorem C2_round_trip (K V : Type) [LinearOrder K] (m : KeyValueMap K V)
    (hm : Reachable m) (k : K) (v : V) (habs : m.find k = none) :
    (m.insert k v).2.find k = some (k, some v) ∧
    ((m.insert k v).2.delete k).1 = some ⟨k, some v⟩ ∧
    ((m.insert k v).2.delete k).2.find k = none := by
  have hg := reachable_good hm
  have hm1 : Good (m.insert k v).2 := good_insert m k v hg
  have h0 : lookupKey k (inorder m.root) = none := by
    rw [find_eq_lookup m k hg.2.1] at habs
    exact Option.map_eq_none'.mp habs
  have sem := insert_sem m.root ⟨k, some v⟩ hg.2.1
  have hroot1 : (m.insert k v).2.root
      = (AAMap.insert m.root ⟨k, some v⟩ .nil .nil 1).2 := rfl
  have hlook1 : lookupKey k (inorder (m.insert k v).2.root)
      = some ⟨k, some v⟩ := by
    rw [hroot1, sem.1]
    exact @lookupKey_listInsert_self K V _ ⟨k, some v⟩ (inorder m.root) h0
  have dsem := delete_sem (m.insert k v).2.root ⟨k, none⟩ hm1.2.1
  dsimp only at dsem
  have h2 := dsem.2
  rw [hlook1] at h2
  have hfind1 : (m.insert k v).2.find k = some (k, some v) := by
    rw [find_eq_lookup _ k hm1.2.1, hlook1]
    rfl
  have hfind2 : ((m.insert k v).2.delete k).2.find k = none := by
    have hg2 : Good ((m.insert k v).2.delete k).2 := good_delete _ k hm1
    rw [find_eq_lookup _ k hg2.2.1, KeyValueMap.delete_root _ k, dsem.1,
      lookupKey_filter_ne]
    rfl
  refine ⟨hfind1, ?_, hfind2⟩
  rcases hd : (AAMap.delete (m.insert k v).2.root ⟨k, none⟩).2 with _ | d
  · rw [hd] at h2
    exact absurd h2 (by simp)
  · rw [hd] at h2
    simp only [Option.map_some'] at h2
    rw [KeyValueMap.delete_def_some _ k d hd]
    exact h2

theorem C2_round_trip_witness :
    Reachable (KeyValueMap.new : KeyValueMap Nat Nat) ∧
    (KeyValueMap.new : KeyValueMap Nat Nat).find 0 = none ∧
    ((KeyValueMap.new : KeyValueMap Nat Nat).insert 0 7).2.find 0 = some (0, some 7) ∧
    (((KeyValueMap.new : KeyValueMap Nat Nat).insert 0 7).2.delete 0).1 = some ⟨0, some 7⟩ ∧
    (((KeyValueMap.new : KeyValueMap Nat Nat).insert 0 7).2.delete 0).2.find 0 = none :=
  ⟨⟨[], rfl⟩, rfl,
    C2_round_trip Nat Nat KeyValueMap.new ⟨[], rfl⟩ 0 7 rfl⟩

end AAMap

namespace AAMap

/-- C3: after every sequence of facade operations (hence after each
individual insert or delete completes), the in-order traversal of the keys
is strictly increasing and the count field equals the number of nodes
reachable from the root. -/
theorem C3_sorted_and_count (K V : Type) [LinearOrder K]
    (ops : List (Op K V)) :
    List.Pairwise (fun a b : K => a < b)
      ((inorder (applyOps KeyValueMap.new ops).root).map KeyValuePair.key) ∧
    (applyOps KeyValueMap.new ops).count
      = size (applyOps KeyValueMap.new ops).root := by
  have hg := reachable_good (⟨ops, rfl⟩ :
    Reachable (applyOps (KeyValueMap.new : KeyValueMap K V) ops))
  exact ⟨List.pairwise_map.mpr hg.2.1, hg.2.2.1⟩

/-- C4: on any reachable map in which the key k is already present with
stored value v, insert(k, w) returns false, leaves the tree unmodified and
the count unchanged, and a subsequent find(k) still returns v: the new
value w is discarded, never overwriting. -/
theorem C4_duplicate_insert (K V : Type) [LinearOrder K]
    (m : KeyValueMap K V) (hm : Reachable m) (k : K) (v : Option V) (w : V)
    (hfind : m.find k = some (k, v)) :
    (m.insert k w).1 = false ∧
    (m.insert k w).2.root = m.root ∧
    (m.insert k w).2.count = m.count ∧
    (m.insert k w).2.find k = some (k, v) := by
  have hg := reachable_good hm
  have hpres : lookupKey k (inorder m.root) = some ⟨k, v⟩ := by
    rw [find_eq_lookup m k hg.2.1] at hfind
    rcases hl : lookupKey k (inorder m.root) with _ | p
    · rw [hl] at hfind
      exact absurd hfind (by simp)
    · rw [hl] at hfind
      obtain ⟨pk, pv⟩ := p
      simp only [Option.map_some', Option.some.injEq, Prod.mk.injEq] at hfind
      rw [hfind.1, hfind.2]
  have sem := insert_sem m.root ⟨k, some w⟩ hg.2.1
  dsimp only at sem
  have hfst : (AAMap.insert m.root ⟨k, some w⟩ Tree.nil Tree.nil 1).1 = false := by
    rw [sem.2, hpres]
    rfl
  have hroot := insert_dup_id m.root ⟨k, some w⟩ hg.1 hfst
  refine ⟨hfst, hroot, ?_, ?_⟩
  · show m.count + (if (AAMap.insert m.root ⟨k, some w⟩ Tree.nil Tree.nil 1).1
      then 1 else 0) = m.count
    rw [hfst]
    simp
  · unfold KeyValueMap.find
    rw [show (m.insert k w).2.root = m.root from hroot]
    exact hfind

theorem C4_duplicate_insert_witness :
    Reachable ((KeyValueMap.new : KeyValueMap Nat Nat).insert 0 5).2 ∧
    ((KeyValueMap.new : KeyValueMap Nat Nat).insert 0 5).2.find 0 = some (0, some 5) ∧
    ((((KeyValueMap.new : KeyValueMap Nat Nat).insert 0 5).2.insert 0 7).1 = false ∧
     (((KeyValueMap.new : KeyValueMap Nat Nat).insert 0 5).2.insert 0 7).2.root
       = ((KeyValueMap.new : KeyValueMap Nat Nat).insert 0 5).2.root ∧
     (((KeyValueMap.new : KeyValueMap Nat Nat).insert 0 5).2.insert 0 7).2.count
       = ((KeyValueMap.new : KeyValueMap Nat Nat).insert 0 5).2.count ∧
     (((KeyValueMap.new : KeyValueMap Nat Nat).insert 0 5).2.insert 0 7).2.find 0
       = some (0, some 5)) :=
  ⟨⟨[Op.ins 0 5], rfl⟩, by decide,
    C4_duplicate_insert Nat Nat ((KeyValueMap.new : KeyValueMap Nat Nat).insert 0 5).2
      ⟨[Op.ins 0 5], rfl⟩ 0 (some 5) 7 (by decide)⟩

/-- C5: on any reachable map in which the key k is absent, delete(k)
reports absence (returns no extracted value), leaves the count unchanged,
and returns a tree structurally identical to the one before the call (same
nodes, shape and levels, hence the same in-order sequence). -/
theorem C5_delete_absent (K V : Type) [LinearOrder K]
    (m : KeyValueMap K V) (hm : Reachable m) (k : K)
    (habs : m.find k = none) :
    (m.delete k).1 = none ∧
    (m.delete k).2.root = m.root ∧
    (m.delete k).2.count = m.count := by
  have hg := reachable_good hm
  have h0 : lookupKey k (inorder m.root) = none := by
    rw [find_eq_lookup m k hg.2.1] at habs
    exact Option.map_eq_none'.mp habs
  have dsem := delete_sem m.root ⟨k, none⟩ hg.2.1
  dsimp only at dsem
  have h2 := dsem.2
  rw [h0] at h2
  have hd : (AAMap.delete m.root ⟨k, none⟩).2 = none :=
    Option.map_eq_none'.mp h2
  have hid := delete_absent_id m.root ⟨k, none⟩ hg.1 hd
  rw [KeyValueMap.delete_def_none m k hd]
  exact ⟨rfl, hid, rfl⟩

theorem C5_delete_absent_witness :
    Reachable ((KeyValueMap.new : KeyValueMap Nat Nat).insert 1 5).2 ∧
    ((KeyValueMap.new : KeyValueMap Nat Nat).insert 1 5).2.find 0 = none ∧
    ((((KeyValueMap.new : KeyValueMap Nat Nat).insert 1 5).2.delete 0).1 = none ∧
     (((KeyValueMap.new : KeyValueMap Nat Nat).insert 1 5).2.delete 0).2.root
       = ((KeyValueMap.new : KeyValueMap Nat Nat).insert 1 5).2.root ∧
     (((KeyValueMap.new : KeyValueMap Nat Nat).insert 1 5).2.delete 0).2.count
       = ((KeyValueMap.new : KeyValueMap Nat Nat).insert 1 5).2.count) :=
  ⟨⟨[Op.ins 1 5], rfl⟩, by decide,
    C5_delete_absent Nat Nat ((KeyValueMap.new : KeyValueMap Nat Nat).insert 1 5).2
      ⟨[Op.ins 1 5], rfl⟩ 0 (by decide)⟩

end AAMap

namespace AAMap

/-- C6: when delete matches a node that has children, the matched node's
position keeps its identity but now holds the extracted
successor/predecessor entry (the payloads are swapped), and the extraction
result carries the entry originally stored at the matched node; hence the
facade delete(k) returns the value that was associated with k. -/
theorem C6_delete_swaps_payload (K V : Type) [LinearOrder K]
    (x v : KeyValuePair K V) (lvl : Nat)
    (h1 : ¬ x.key < v.key) (h2 : ¬ v.key < x.key) :
    (∀ (rv : KeyValuePair K V) (rl rr : Tree (KeyValuePair K V)) (rlev : Nat),
      delete (Tree.node v Tree.nil (Tree.node rv rl rr rlev) lvl) x =
        (rebalance (Tree.node (successor rv rl rr rlev).2.1 Tree.nil
          (successor rv rl rr rlev).1 lvl),
         some (v, (successor rv rl rr rlev).2.2))) ∧
    (∀ (lv : KeyValuePair K V) (ll lr r : Tree (KeyValuePair K V)) (llev : Nat),
      delete (Tree.node v (Tree.node lv ll lr llev) r lvl) x =
        (rebalance (Tree.node (predecessor lv ll lr llev).2.1
          (predecessor lv ll lr llev).1 r lvl),
         some (v, (predecessor lv ll lr llev).2.2))) ∧
    (∀ (m : KeyValueMap K V), Reachable m → ∀ (k : K) (w : Option V),
      m.find k = some (k, w) → (m.delete k).1 = some ⟨k, w⟩) := by
  refine ⟨fun rv rl rr rlev => delete_eq_succ h1 h2,
    fun lv ll lr r llev => delete_eq_pred h1 h2, ?_⟩
  intro m hm k w hfind
  have hg := reachable_good hm
  have hpres : lookupKey k (inorder m.root) = some ⟨k, w⟩ := by
    rw [find_eq_lookup m k hg.2.1] at hfind
    rcases hl : lookupKey k (inorder m.root) with _ | p
    · rw [hl] at hfind
      exact absurd hfind (by simp)
    · rw [hl] at hfind
      obtain ⟨pk, pv⟩ := p
      simp only [Option.map_some', Option.some.injEq, Prod.mk.injEq] at hfind
      rw [hfind.1, hfind.2]
  have dsem := delete_sem m.root ⟨k, none⟩ hg.2.1
  dsimp only at dsem
  have hd2 := dsem.2
  rw [hpres] at hd2
  rcases hd : (AAMap.delete m.root ⟨k, none⟩).2 with _ | d
  · rw [hd] at hd2
    exact absurd hd2 (by simp)
  · rw [hd] at hd2
    simp only [Option.map_some'] at hd2
    rw [KeyValueMap.delete_def_some m k d hd]
    exact hd2

theorem C6_delete_swaps_payload_witness :
    delete (Tree.node (⟨0, some 1⟩ : KeyValuePair Nat Nat) Tree.nil
        (Tree.node ⟨2, some 3⟩ Tree.nil Tree.nil 1) 2) ⟨0, none⟩ =
      (rebalance (Tree.node
          (successor (⟨2, some 3⟩ : KeyValuePair Nat Nat) Tree.nil Tree.nil 1).2.1
          Tree.nil
          (successor (⟨2, some 3⟩ : KeyValuePair Nat Nat) Tree.nil Tree.nil 1).1 2),
       some (⟨0, some 1⟩,
         (successor (⟨2, some 3⟩ : KeyValuePair Nat Nat) Tree.nil Tree.nil 1).2.2)) :=
  (C6_delete_swaps_payload Nat Nat ⟨0, none⟩ ⟨0, some 1⟩ 2
    (by decide) (by decide)).1 ⟨2, some 3⟩ Tree.nil Tree.nil 1

/-- C7: skew returns every subtree unchanged unless the left child exists
and has the same level as the root, in which case it performs exactly the
described right rotation (the left child becomes the new local root, its
former right child becomes the old root's new left child, the old root
becomes the new root's right child); skew never changes any node's level or
in-order position. -/
theorem C7_skew_characterization (α : Type) :
    (skew (Tree.nil : Tree α) = Tree.nil) ∧
    (∀ (v : α) (r : Tree α) (lvl : Nat),
      skew (Tree.node v Tree.nil r lvl) = Tree.node v Tree.nil r lvl) ∧
    (∀ (v lv : α) (ll lr r : Tree α) (llev lvl : Nat), llev ≠ lvl →
      skew (Tree.node v (Tree.node lv ll lr llev) r lvl) =
        Tree.node v (Tree.node lv ll lr llev) r lvl) ∧
    (∀ (v lv : α) (ll lr r : Tree α) (lvl : Nat),
      skew (Tree.node v (Tree.node lv ll lr lvl) r lvl) =
        Tree.node lv ll (Tree.node v lr r lvl) lvl) ∧
    (∀ t : Tree α, inorderL (skew t) = inorderL t) :=
  ⟨rfl, fun _ _ _ => rfl,
    fun _ _ _ _ _ _ _ h => skew_not_fire (by rw [levelOf_node]; exact h),
    fun _ _ _ _ _ _ => skew_fire,
    inorderL_skew⟩

/-- C8: split returns every subtree unchanged unless the right child and
the right-right grandchild both exist and the grandchild's level equals the
root's level, in which case it performs exactly the described left rotation
(the right child becomes the new local root, its former left child becomes
the old root's new right child, the old root becomes the new root's left
child) and increments the promoted node's level by 1; it is the only
level-increasing operation: skew keeps every level and decrease_level never
increases one. -/
theorem C8_split_characterization (α : Type) :
    (split (Tree.nil : Tree α) = Tree.nil) ∧
    (∀ (v : α) (l : Tree α) (lvl : Nat),
      split (Tree.node v l Tree.nil lvl) = Tree.node v l Tree.nil lvl) ∧
    (∀ (v rv : α) (l rl : Tree α) (lvl rlev : Nat),
      split (Tree.node v l (Tree.node rv rl Tree.nil rlev) lvl) =
        Tree.node v l (Tree.node rv rl Tree.nil rlev) lvl) ∧
    (∀ (v rv rrv : α) (l rl rrl rrr : Tree α) (lvl rlev rrlev : Nat),
      lvl ≠ rrlev →
      split (Tree.node v l (Tree.node rv rl (Tree.node rrv rrl rrr rrlev) rlev) lvl) =
        Tree.node v l (Tree.node rv rl (Tree.node rrv rrl rrr rrlev) rlev) lvl) ∧
    (∀ (v rv rrv : α) (l rl rrl rrr : Tree α) (lvl rlev : Nat),
      split (Tree.node v l (Tree.node rv rl (Tree.node rrv rrl rrr lvl) rlev) lvl) =
        Tree.node rv (Tree.node v l rl lvl) (Tree.node rrv rrl rrr lvl) (rlev + 1)) ∧
    (∀ t : Tree α, inorderL (skew t) = inorderL t) ∧
    (∀ t : Tree α,
      List.Forall₂ (fun a b : α × Nat => b.1 = a.1 ∧ b.2 ≤ a.2)
        (inorderL t) (inorderL (decrease_level t))) :=
  ⟨rfl, fun _ _ _ => rfl, fun _ _ _ _ _ _ => rfl,
    fun _ _ _ _ _ _ _ _ _ _ h =>
      split_not_fire (by rw [rightT_node, levelOf_node]; exact fun he => h he.symm),
    fun _ _ _ _ _ _ _ _ _ => split_fire,
    inorderL_skew, decrease_level_levels⟩

theorem C7_skew_characterization_witness :
    skew (Tree.node (0 : Nat) (Tree.node 1 Tree.nil Tree.nil 1) Tree.nil 2) =
      Tree.node 0 (Tree.node 1 Tree.nil Tree.nil 1) Tree.nil 2 :=
  (C7_skew_characterization Nat).2.2.1 0 1 Tree.nil Tree.nil Tree.nil 1 2
    (by decide)

theorem C8_split_characterization_witness :
    split (Tree.node (0 : Nat)
        Tree.nil (Tree.node 1 Tree.nil (Tree.node 2 Tree.nil Tree.nil 1) 1) 2) =
      Tree.node 0 Tree.nil (Tree.node 1 Tree.nil (Tree.node 2 Tree.nil Tree.nil 1) 1) 2 :=
  (C8_split_characterization Nat).2.2.2.1 0 1 2 Tree.nil Tree.nil Tree.nil Tree.nil
    2 1 1 (by decide)

end AAMap

namespace AAMap

/-- The map built by `fn main`: the keys 0..20 (exclusive) inserted in
increasing order, each with the constant value "catscatscats". -/
def mainMap : KeyValueMap Nat String :=
  applyOps KeyValueMap.new ((List.range 20).map fun k => Op.ins k "catscatscats")

/-- C9: inserting the keys 0..20 in increasing order with one constant
value yields count 20, find(5) returns the value, and the root's AA level
is at most 5; after delete(10), find(10) reports absence, the count is 19,
the tree holds 19 nodes, and the remaining keys traverse in strictly
increasing order. -/
theorem C9_main_scenario :
    mainMap.count = 20 ∧
    mainMap.find 5 = some (5, some "catscatscats") ∧
    levelOf mainMap.root ≤ 5 ∧
    (mainMap.delete 10).2.find 10 = none ∧
    (mainMap.delete 10).2.count = 19 ∧
    size (mainMap.delete 10).2.root = 19 ∧
    List.Pairwise (fun a b : Nat => a < b)
      ((inorder (mainMap.delete 10).2.root).map KeyValuePair.key) := by
  decide

/-- C10: every map reachable from KeyValueMap::new by facade operations
stores only pairs whose value field is Some, so whenever find returns an
entry its stored option is Some: the unguarded unwrap inside find is never
reached with an absent value and find is total for any queried key. -/
theorem C10_find_never_panics (K V : Type) [LinearOrder K]
    (m : KeyValueMap K V) (hm : Reachable m) :
    (∀ p ∈ inorder m.root, p.value.isSome = true) ∧
    (∀ (k : K) (r : K × Option V), m.find k = some r → r.2.isSome = true) := by
  have hg := reachable_good hm
  refine ⟨hg.2.2.2, ?_⟩
  intro k r hr
  unfold KeyValueMap.find at hr
  rcases hf : findNode k m.root with _ | p
  · rw [hf] at hr
    exact absurd hr (by simp)
  · rw [hf] at hr
    simp only [Option.map_some'] at hr
    have hmem := findNode_mem hf
    have hsome := hg.2.2.2 p hmem
    rw [← Option.some.inj hr]
    exact hsome

theorem C10_find_never_panics_witness :
    Reachable ((KeyValueMap.new : KeyValueMap Nat Nat).insert 0 5).2 ∧
    ((KeyValueMap.new : KeyValueMap Nat Nat).insert 0 5).2.find 0 = some (0, some 5) ∧
    ((0, some 5) : Nat × Option Nat).2.isSome = true :=
  ⟨⟨[Op.ins 0 5], rfl⟩, by decide,
    (C10_find_never_panics Nat Nat ((KeyValueMap.new : KeyValueMap Nat Nat).insert 0 5).2
      ⟨[Op.ins 0 5], rfl⟩).2 0 (0, some 5) (by decide)⟩

end AAMap
